import Mathlib

/-!
# StaticMatrix: a verification development

A shallow embedding of `ng::StaticMatrix<T, Rows, Cols>`
(`src/matrix/include/implementation/static_matrix.tpp`) and proofs about its
linear-algebra members.

* The storage `data_` is the flat row-major sequence of `Rows * Cols` elements.
* `for (i = 0; i != n; ++i) body` is `forLoop n body`, passing the mutated
  locals as explicit state.
* Element types are exact: `ℤ` stands for the integral types and `ℚ` for the
  floating ones.
-/

set_option autoImplicit false

namespace ng

/-- The element type's own `operator/`, next to its ring arithmetic: truncating
division for an integral type, field division for a floating one. -/
class Fundamental (T : Type) where
  /-- The C++ expression `a / b` on the element type. -/
  quot : T → T → T

instance instFundamentalInt : Fundamental ℤ := ⟨Int.tdiv⟩

instance instFundamentalRat : Fundamental ℚ := ⟨fun a b => a / b⟩

/-- The loop `for (i = 0; i != n; ++i) body(i)` run on the state `s`:
the iterations `0, 1, ..., n - 1` in this order. -/
def forLoop {σ : Type} : Nat → (Nat → σ → σ) → σ → σ
  | 0, _, s => s
  | n + 1, body, s => body n (forLoop n body s)

/-- The exceptions the source throws, with their messages. -/
inductive Error where
  /-- A thrown `std::out_of_range`. -/
  | out_of_range (what : String)
  /-- A thrown `std::logic_error`. -/
  | logic_error (what : String)
deriving DecidableEq, Repr

/-- The matrix `StaticMatrix<T, Rows, Cols>`: `Rows * Cols` elements in row-major order. -/
structure StaticMatrix (T : Type) (Rows Cols : Nat) where
  /-- The member `data_`. -/
  data_ : List T
  /-- The storage holds exactly `Rows * Cols` elements. -/
  size_ok : data_.length = Rows * Cols
deriving DecidableEq

namespace StaticMatrix

variable {T : Type} {Rows Cols : Nat}

/-- The member `rows()`. -/
def rows (_m : StaticMatrix T Rows Cols) : Nat := Rows

/-- The member `cols()`. -/
def cols (_m : StaticMatrix T Rows Cols) : Nat := Cols

/-- The member `size()`: `rows_ * cols_`. -/
def size (_m : StaticMatrix T Rows Cols) : Nat := Rows * Cols

/-- Reading through `operator()(row, col)`: `data_[row * cols_ + col]`. The source leaves an
offset outside the storage undefined; the model reads the type's zero there. -/
def elem [Zero T] (m : StaticMatrix T Rows Cols) (row col : Nat) : T :=
  m.data_.getD (row * Cols + col) 0

/-- Writing through the reference `operator()(row, col)`: `data_[row * cols_ + col] = v`. The
source leaves an offset outside the storage undefined; the model writes nothing there. -/
def setElem (m : StaticMatrix T Rows Cols) (row col : Nat) (v : T) : StaticMatrix T Rows Cols :=
  ⟨m.data_.set (row * Cols + col) v, by rw [List.length_set]; exact m.size_ok⟩

/-- Writing `data_[i] = v` by flat offset. -/
def setData (m : StaticMatrix T Rows Cols) (i : Nat) (v : T) : StaticMatrix T Rows Cols :=
  ⟨m.data_.set i v, by rw [List.length_set]; exact m.size_ok⟩

/-- Modelled from the spec: the declaration of the member `data_` and its initialiser are in
`static_matrix.h`, which is not among the sources. The spec gives the default fill value as the
type's zero, and the fill constructor skips its loop for that value, so a freshly declared
matrix holds `Rows * Cols` zeros. -/
def init [Zero T] : StaticMatrix T Rows Cols :=
  ⟨List.replicate (Rows * Cols) 0, List.length_replicate _ _⟩

/-- The constructor `StaticMatrix(value_type fill)`. -/
def fillCtor [Zero T] [DecidableEq T] (fill : T) : StaticMatrix T Rows Cols :=
  if fill ≠ 0 then
    forLoop (Rows * Cols) (fun i m => m.setData i fill) init
  else
    init

/-- The member `at(row, col)`: the checked accessor. -/
def at_ [Zero T] (m : StaticMatrix T Rows Cols) (row col : Nat) : Except Error T :=
  if row ≥ Rows ∨ col ≥ Cols then
    Except.error (Error.out_of_range "row or col is out of matrix bounds")
  else
    Except.ok (m.elem row col)

/-- The member `zero()`: a default-constructed matrix. -/
def zero [Zero T] (_m : StaticMatrix T Rows Cols) : StaticMatrix T Rows Cols :=
  init

/-- The member `identity()`. -/
def identity [Zero T] [One T] {n : Nat} (_m : StaticMatrix T n n) : StaticMatrix T n n :=
  forLoop n (fun row identity =>
    forLoop n (fun col identity =>
      if row = col then identity.setElem row col 1 else identity) identity) init

/-- The member `mul_by_element(rhs)`. -/
def mul_by_element [Zero T] [Mul T] (m rhs : StaticMatrix T Rows Cols) :
    StaticMatrix T Rows Cols :=
  forLoop Rows (fun row multpipled =>
    forLoop Cols (fun col multpipled =>
      multpipled.setElem row col (m.elem row col * rhs.elem row col)) multpipled) init

/-- The member `transpose()`. -/
def transpose [Zero T] (m : StaticMatrix T Rows Cols) : StaticMatrix T Cols Rows :=
  forLoop Rows (fun row transposed =>
    forLoop Cols (fun col transposed =>
      transposed.setElem col row (m.elem row col)) transposed) init

/-- The locals of `minor`: `skip_row`, `skip_col` and the matrix `minored` under construction. -/
structure MinorState (T : Type) (Rows Cols : Nat) where
  /-- The local `skip_row`. -/
  skip_row : Nat
  /-- The local `skip_col`. -/
  skip_col : Nat
  /-- The local `minored`. -/
  minored : StaticMatrix T (Rows - 1) (Cols - 1)

/-- The inner loop of `minor(row, col)`, over the destination columns of destination row `r`. -/
def minorCols [Zero T] (m : StaticMatrix T Rows Cols) (col r : Nat)
    (st : MinorState T Rows Cols) : MinorState T Rows Cols :=
  forLoop (Cols - 1) (fun c st =>
    let st3 : MinorState T Rows Cols := if col = c then { st with skip_col := 1 } else st
    { st3 with
      minored := st3.minored.setElem r c (m.elem (r + st3.skip_row) (c + st3.skip_col)) }) st

/-- The loops of the member `minor(row, col)`, on its three locals. -/
def minorLoops [Zero T] (m : StaticMatrix T Rows Cols) (row col : Nat) :
    MinorState T Rows Cols :=
  forLoop (Rows - 1) (fun r st =>
    let st1 : MinorState T Rows Cols := if row = r then { st with skip_row := 1 } else st
    let st2 : MinorState T Rows Cols := { st1 with skip_col := 0 }
    minorCols m col r st2)
    { skip_row := 0, skip_col := 0, minored := init }

/-- The member `minor(row, col)`. -/
def minor [Zero T] (m : StaticMatrix T Rows Cols) (row col : Nat) :
    StaticMatrix T (Rows - 1) (Cols - 1) :=
  (minorLoops m row col).minored

/-- The member `determinant()`, by recursion on the extent as the template instantiates it.
Extent `0` is rejected by the source (`non_zero_dimension`); the model returns the
value-initialised accumulator there. -/
def determinant [CommRing T] : (n : Nat) → StaticMatrix T n n → T
  | 0, _ => 0
  | 1, m => m.elem 0 0
  | 2, m => m.elem 0 0 * m.elem 1 1 - m.elem 1 0 * m.elem 0 1
  | n + 3, m =>
    (forLoop (n + 3) (fun col (st : T × ℤ) =>
      let minored : StaticMatrix T (n + 2) (n + 2) := m.minor 0 col
      (st.1 + (st.2 : T) * m.elem 0 col * determinant (n + 2) minored, -st.2)) (0, 1)).1

/-- The member `minor_item(row, col)`: `minor(row, col).determinant()`. -/
def minor_item [CommRing T] {n : Nat} (m : StaticMatrix T n n) (row col : Nat) : T :=
  determinant (n - 1) (m.minor row col)

/-- The member `calc_complements()`. -/
def calc_complements [CommRing T] {n : Nat} (m : StaticMatrix T n n) : StaticMatrix T n n :=
  forLoop n (fun row complements =>
    forLoop n (fun col complements =>
      let written := complements.setElem row col (m.minor_item row col)
      if (row + col) % 2 ≠ 0 then
        written.setElem row col (-(written.elem row col))
      else
        written) complements) init

/-- The member `inverse()`. -/
def inverse [CommRing T] [Fundamental T] [DecidableEq T] {n : Nat} (m : StaticMatrix T n n) :
    StaticMatrix T n n :=
  let det := determinant n m
  if det ≠ 0 then
    m.calc_complements.transpose.mul_by_element
      (fillCtor (Fundamental.quot 1 (determinant n m)))
  else
    m.zero

/-- Modelled from the spec: the member `mul(rhs)` with a matrix operand, which the
matrix-matrix `operator*` calls, is declared and defined in `static_matrix.h`, which is not
among the sources. The spec: the product "performs the standard triple-loop accumulation
`result(i,j) = Σ_k lhs(i,k)·rhs(k,j)`", with result extents left-rows by right-cols. -/
def mul_matrix [Zero T] [Add T] [Mul T] {R K C : Nat} (lhs : StaticMatrix T R K)
    (rhs : StaticMatrix T K C) : StaticMatrix T R C :=
  forLoop R (fun i result =>
    forLoop C (fun j result =>
      forLoop K (fun k result =>
        result.setElem i j (result.elem i j + lhs.elem i k * rhs.elem k j)) result) result) init

/-- The free `operator*(lhs, rhs)` on two matrices: `lhs.mul(rhs)`. -/
def operator_mul [Zero T] [Add T] [Mul T] {R K C : Nat} (lhs : StaticMatrix T R K)
    (rhs : StaticMatrix T K C) : StaticMatrix T R C :=
  lhs.mul_matrix rhs

/-- The algorithm `std::copy(container.begin(), container.end(), begin())`: the elements of
the container, in order, are written to the storage from offset `0` on. The state is the
destination offset and the matrix. -/
def copy (container : List T) (m : StaticMatrix T Rows Cols) : StaticMatrix T Rows Cols :=
  (container.foldl
    (fun (st : Nat × StaticMatrix T Rows Cols) x => (st.1 + 1, st.2.setData st.1 x)) (0, m)).2

/-- The constructor `StaticMatrix(const Container &container)` for a variable-length
container; `Except.error` is the thrown `std::logic_error`, after which no matrix exists. -/
def containerCtor [Zero T] (container : List T) : Except Error (StaticMatrix T Rows Cols) :=
  if Rows * Cols ≠ container.length then
    Except.error (Error.logic_error "container has more/less items than in matrix")
  else
    Except.ok (copy container init)

/-- The member `transform(op)` with a unary operation:
`std::transform(begin(), end(), begin(), op)` replaces every element `e` by `op(e)`. -/
def transform (m : StaticMatrix T Rows Cols) (op : T → T) : StaticMatrix T Rows Cols :=
  ⟨m.data_.map op, by rw [List.length_map]; exact m.size_ok⟩

/-- The in-place member `mul(value)` with a scalar operand; the result is `*this` afterwards. -/
def mul [Mul T] (m : StaticMatrix T Rows Cols) (value : T) : StaticMatrix T Rows Cols :=
  m.transform (fun item => item * value)

/-- The in-place member `add(value)` with a scalar operand; the result is `*this` afterwards. -/
def add [Add T] (m : StaticMatrix T Rows Cols) (value : T) : StaticMatrix T Rows Cols :=
  m.transform (fun item => item + value)

/-- The in-place member `sub(value)` with a scalar operand; the result is `*this` afterwards. -/
def sub [Sub T] (m : StaticMatrix T Rows Cols) (value : T) : StaticMatrix T Rows Cols :=
  m.transform (fun item => item - value)

/-- The in-place member `div(value)` with a scalar operand; the result is `*this` afterwards. -/
def div [Fundamental T] (m : StaticMatrix T Rows Cols) (value : T) : StaticMatrix T Rows Cols :=
  m.transform (fun item => Fundamental.quot item value)

/-- The member `div_by_element(rhs)`. -/
def div_by_element [Zero T] [Fundamental T] (m rhs : StaticMatrix T Rows Cols) :
    StaticMatrix T Rows Cols :=
  forLoop Rows (fun row division =>
    forLoop Cols (fun col division =>
      division.setElem row col (Fundamental.quot (m.elem row col) (rhs.elem row col)))
      division) init

/-- The const member `add(rhs)` with a matrix operand. -/
def add_matrix [Zero T] [Add T] (m rhs : StaticMatrix T Rows Cols) : StaticMatrix T Rows Cols :=
  forLoop Rows (fun row addition =>
    forLoop Cols (fun col addition =>
      addition.setElem row col (m.elem row col + rhs.elem row col)) addition) init

/-- The const member `sub(rhs)` with a matrix operand. -/
def sub_matrix [Zero T] [Sub T] (m rhs : StaticMatrix T Rows Cols) : StaticMatrix T Rows Cols :=
  forLoop Rows (fun row substraction =>
    forLoop Cols (fun col substraction =>
      substraction.setElem row col (m.elem row col - rhs.elem row col)) substraction) init

/-- The free `operator+(lhs, rhs)` on two matrices: `lhs.add(rhs)`. -/
def operator_add [Zero T] [Add T] (lhs rhs : StaticMatrix T Rows Cols) :
    StaticMatrix T Rows Cols :=
  lhs.add_matrix rhs

/-- The free `operator-(lhs, rhs)` on two matrices: `lhs.sub(rhs)`. -/
def operator_sub [Zero T] [Sub T] (lhs rhs : StaticMatrix T Rows Cols) :
    StaticMatrix T Rows Cols :=
  lhs.sub_matrix rhs

/-- The free `operator+(lhs, value)` with a scalar: `lhs.add(StaticMatrix(value))`. -/
def operator_add_scalar [Zero T] [Add T] [DecidableEq T] (lhs : StaticMatrix T Rows Cols)
    (value : T) : StaticMatrix T Rows Cols :=
  lhs.add_matrix (fillCtor value)

/-- The free `operator-(lhs, value)` with a scalar: `lhs.sub(StaticMatrix(value))`. -/
def operator_sub_scalar [Zero T] [Sub T] [DecidableEq T] (lhs : StaticMatrix T Rows Cols)
    (value : T) : StaticMatrix T Rows Cols :=
  lhs.sub_matrix (fillCtor value)

/-- The free `operator*(lhs, value)` with a scalar: `lhs.mul_by_element(StaticMatrix(value))`. -/
def operator_mul_scalar [Zero T] [Mul T] [DecidableEq T] (lhs : StaticMatrix T Rows Cols)
    (value : T) : StaticMatrix T Rows Cols :=
  lhs.mul_by_element (fillCtor value)

/-- The free `operator/(lhs, value)` with a scalar: `lhs.div_by_element(StaticMatrix(value))`. -/
def operator_div_scalar [Zero T] [Fundamental T] [DecidableEq T]
    (lhs : StaticMatrix T Rows Cols) (value : T) : StaticMatrix T Rows Cols :=
  lhs.div_by_element (fillCtor value)

/-- The in-place member `to_identity()`; the result is `*this` afterwards. -/
def to_identity [Zero T] [One T] {n : Nat} (m : StaticMatrix T n n) : StaticMatrix T n n :=
  forLoop n (fun row m =>
    forLoop n (fun col m => m.setElem row col (if row = col then 1 else 0)) m) m

/-- Modelled from the spec: the bundle `MatrixDebugSettings` is declared in a header that is
not among the sources; the spec lists its members
`width, precision, separator, end, is_double_end`. -/
structure MatrixDebugSettings where
  /-- The field width handed to `std::setw`. -/
  width : Nat
  /-- The precision handed to `std::setprecision`. -/
  precision : Nat
  /-- The text written after an element. -/
  separator : String
  /-- The member `end`: the text written after a row. -/
  end_ : String
  /-- Whether `end` is written once more after the matrix. -/
  is_double_end : Bool

/-- The member `print(os, settings)`. The sink `os` is the text written so far, `os << x` appends
to it, and `fmt width precision e` is what
`os << std::setw(width) << std::setprecision(precision) << e` writes for one element. -/
def print [Zero T] (fmt : Nat → Nat → T → String) (m : StaticMatrix T Rows Cols) (os : String)
    (settings : MatrixDebugSettings) : String :=
  let printed := forLoop Rows (fun row os =>
    let line := forLoop Cols (fun col os =>
      os ++ fmt settings.width settings.precision (m.elem row col) ++ settings.separator) os
    line ++ settings.end_) os
  if settings.is_double_end then printed ++ settings.end_ else printed

/-- The rendering as the specification words it, for comparison with `print`: the elements of
a row joined by `separator`, each row followed by `end`, and one more `end` when
`is_double_end` is set. -/
def print_joined [Zero T] (fmt : Nat → Nat → T → String) (m : StaticMatrix T Rows Cols)
    (os : String) (settings : MatrixDebugSettings) : String :=
  os ++ String.join ((List.range Rows).map fun row =>
      settings.separator.intercalate ((List.range Cols).map fun col =>
        fmt settings.width settings.precision (m.elem row col)) ++ settings.end_)
    ++ (if settings.is_double_end then settings.end_ else "")

/-- The inner loop of `minor(row, col)` with its source reads recorded: the same statements as
`minorCols`, and next to the locals the list of index pairs `(r + skip_row, c + skip_col)`
handed to `operator()` of the source matrix, in the order they are read. -/
def minorColsReads [Zero T] (m : StaticMatrix T Rows Cols) (col r : Nat)
    (st : MinorState T Rows Cols × List (Nat × Nat)) :
    MinorState T Rows Cols × List (Nat × Nat) :=
  forLoop (Cols - 1) (fun c st =>
    let st3 : MinorState T Rows Cols := if col = c then { st.1 with skip_col := 1 } else st.1
    ({ st3 with
        minored := st3.minored.setElem r c (m.elem (r + st3.skip_row) (c + st3.skip_col)) },
      st.2 ++ [(r + st3.skip_row, c + st3.skip_col)])) st

/-- The loops of `minor(row, col)` with the source reads recorded: the same statements as
`minorLoops`, on the locals and the list of index pairs read from the source matrix. -/
def minorLoopsReads [Zero T] (m : StaticMatrix T Rows Cols) (row col : Nat) :
    MinorState T Rows Cols × List (Nat × Nat) :=
  forLoop (Rows - 1) (fun r st =>
    let st1 : MinorState T Rows Cols := if row = r then { st.1 with skip_row := 1 } else st.1
    let st2 : MinorState T Rows Cols := { st1 with skip_col := 0 }
    minorColsReads m col r (st2, st.2))
    ({ skip_row := 0, skip_col := 0, minored := init }, [])

/-- The fixed-length sequence `std::array<T, N>`. -/
structure StdArray (T : Type) (N : Nat) where
  /-- The elements, in order. -/
  elems : List T
  /-- There are exactly `N` of them. -/
  size_ok : elems.length = N
deriving DecidableEq

/-- Writing `arr[i] = v`. -/
def StdArray.set {N : Nat} (arr : StdArray T N) (i : Nat) (v : T) : StdArray T N :=
  ⟨arr.elems.set i v, by rw [List.length_set]; exact arr.size_ok⟩

/-- The constructor `StaticMatrix(const std::array<T, Rows * Cols> &initializer)`: the loop
`data_[i] = initializer[i]` over the `Rows * Cols` offsets. -/
def arrayCtor [Zero T] (initializer : StdArray T (Rows * Cols)) : StaticMatrix T Rows Cols :=
  forLoop (Rows * Cols) (fun i m => m.setData i (initializer.elems.getD i 0)) init

/-- The member `to_array()`, for the element type itself. The locals are the counter `current`
and the array `arr`; the source declares `arr` without initialising it and then assigns every
element, the model starts it with zeros. -/
def to_array [Zero T] (m : StaticMatrix T Rows Cols) : StdArray T (Rows * Cols) :=
  (forLoop Rows (fun row (st : Nat × StdArray T (Rows * Cols)) =>
    forLoop Cols (fun col (st : Nat × StdArray T (Rows * Cols)) =>
      (st.1 + 1, st.2.set st.1 (m.elem row col))) st)
    (0, ⟨List.replicate (Rows * Cols) 0, List.length_replicate _ _⟩)).2

/-- The matrix as a function of its in-range indices, for comparison with the mathematical
determinant. -/
def toMatrix [Zero T] (m : StaticMatrix T Rows Cols) : Matrix (Fin Rows) (Fin Cols) T :=
  Matrix.of fun i j => m.elem i j

/-- The matrix `[[a, b], [c, d]]`. -/
def mk22 (a b c d : T) : StaticMatrix T 2 2 := ⟨[a, b, c, d], rfl⟩

/-- The matrix `[[a, b, c], [d, e, f], [g, h, k]]`. -/
def mk33 (a b c d e f g h k : T) : StaticMatrix T 3 3 := ⟨[a, b, c, d, e, f, g, h, k], rfl⟩

end StaticMatrix

/-! ## The loop combinator -/

theorem forLoop_succ {σ : Type} (n : Nat) (body : Nat → σ → σ) (s : σ) :
    forLoop (n + 1) body s = body n (forLoop n body s) := rfl

theorem forLoop_congr {σ : Type} (n : Nat) (body body2 : Nat → σ → σ) (s : σ)
    (h : ∀ i, i < n → ∀ t, body i t = body2 i t) : forLoop n body s = forLoop n body2 s := by
  induction n with
  | zero => rfl
  | succ k ih =>
    rw [forLoop_succ, forLoop_succ, ih (fun i hi t => h i (Nat.lt_succ_of_lt hi) t),
      h k (Nat.lt_succ_self k)]

/-- Observing a loop whose iterations change the observed value `o` only at the iterations
selected by `P`, of which there is at most one: the value after the loop is that iteration's
update of the initial value, or the initial value when no iteration is selected. -/
theorem forLoop_obs {σ β : Type} (o : σ → β) (n : Nat) (body : Nat → σ → σ) (P : Nat → Prop)
    [DecidablePred P] (G : Nat → β → β)
    (hbody : ∀ k, k < n → ∀ a, o (body k a) = if P k then G k (o a) else o a)
    (hdisj : ∀ k k2, k < n → k2 < n → P k → P k2 → k = k2) (s : σ) :
    (∀ k, k < n → P k → o (forLoop n body s) = G k (o s)) ∧
      ((∀ k, k < n → ¬ P k) → o (forLoop n body s) = o s) := by
  induction n with
  | zero =>
    exact ⟨fun k hk => absurd hk (Nat.not_lt_zero k), fun _ => rfl⟩
  | succ m ih =>
    have ih2 := ih (fun k hk a => hbody k (Nat.lt_succ_of_lt hk) a)
      (fun k k2 hk hk2 => hdisj k k2 (Nat.lt_succ_of_lt hk) (Nat.lt_succ_of_lt hk2))
    have hstep := hbody m (Nat.lt_succ_self m) (forLoop m body s)
    constructor
    · intro k hk hPk
      rw [forLoop_succ, hstep]
      by_cases hPm : P m
      · have hkm : k = m := hdisj k m hk (Nat.lt_succ_self m) hPk hPm
        subst hkm
        rw [if_pos hPm]
        congr 1
        apply ih2.2
        intro k2 hk2 hPk2
        have := hdisj k2 k (Nat.lt_succ_of_lt hk2) hk hPk2 hPk
        omega
      · rw [if_neg hPm]
        have hkm : k < m := by
          rcases Nat.lt_succ_iff_lt_or_eq.mp hk with h | h
          · exact h
          · subst h; exact absurd hPk hPm
        exact ih2.1 k hkm hPk
    · intro hnone
      rw [forLoop_succ, hstep, if_neg (hnone m (Nat.lt_succ_self m))]
      exact ih2.2 (fun k hk => hnone k (Nat.lt_succ_of_lt hk))

/-! ## Row-major offsets -/

theorem offset_lt {R C i j : Nat} (hi : i < R) (hj : j < C) : i * C + j < R * C := by
  calc i * C + j < i * C + C := Nat.add_lt_add_left hj _
    _ = (i + 1) * C := by ring
    _ ≤ R * C := Nat.mul_le_mul_right C hi

theorem offset_inj {C r c i j : Nat} (hc : c < C) (hj : j < C)
    (h : r * C + c = i * C + j) : r = i ∧ c = j := by
  have h1 : (r * C + c) / C = r := by
    rw [Nat.add_comm, Nat.add_mul_div_right _ _ (by omega), Nat.div_eq_of_lt hc, Nat.zero_add]
  have h2 : (i * C + j) / C = i := by
    rw [Nat.add_comm, Nat.add_mul_div_right _ _ (by omega), Nat.div_eq_of_lt hj, Nat.zero_add]
  have hri : r = i := by rw [← h1, h, h2]
  subst hri
  exact ⟨rfl, by omega⟩

namespace StaticMatrix

variable {T : Type} {Rows Cols : Nat}

/-! ## Reading and writing elements -/

theorem elem_eq_getElem [Zero T] (m : StaticMatrix T Rows Cols) {i j : Nat}
    (h : i * Cols + j < m.data_.length) : m.elem i j = m.data_[i * Cols + j] := by
  unfold elem
  rw [List.getD_eq_getElem _ _ h]

theorem elem_setElem [Zero T] (m : StaticMatrix T Rows Cols) {r c i j : Nat} (v : T)
    (hc : c < Cols) (hi : i < Rows) (hj : j < Cols) :
    (m.setElem r c v).elem i j = if r = i ∧ c = j then v else m.elem i j := by
  have hlt : i * Cols + j < m.data_.length := by rw [m.size_ok]; exact offset_lt hi hj
  unfold elem setElem
  simp only [List.getD_eq_getElem?_getD, List.getElem?_set]
  by_cases hrc : r = i ∧ c = j
  · obtain ⟨rfl, rfl⟩ := hrc
    simp [hlt]
  · have hne : r * Cols + c ≠ i * Cols + j := fun h => hrc (offset_inj hc hj h)
    simp [hne, hrc]

theorem ext_elem [Zero T] (a b : StaticMatrix T Rows Cols)
    (h : ∀ i j, i < Rows → j < Cols → a.elem i j = b.elem i j) : a = b := by
  obtain ⟨da, ha⟩ := a
  obtain ⟨db, hb⟩ := b
  have hd : da = db := by
    apply List.ext_getElem (by rw [ha, hb])
    intro k hk1 hk2
    have hk : k < Rows * Cols := by rw [← ha]; exact hk1
    have hC : 0 < Cols := by
      rcases Nat.eq_zero_or_pos Cols with h0 | h0
      · subst h0; simp at hk
      · exact h0
    have hdiv : k / Cols < Rows := Nat.div_lt_of_lt_mul (by rw [Nat.mul_comm]; exact hk)
    have hmod : k % Cols < Cols := Nat.mod_lt _ hC
    have hkk : k / Cols * Cols + k % Cols = k := by
      rw [Nat.mul_comm]; exact Nat.div_add_mod k Cols
    have := h (k / Cols) (k % Cols) hdiv hmod
    unfold elem at this
    simp only [hkk] at this
    rw [List.getD_eq_getElem _ _ hk1, List.getD_eq_getElem _ _ hk2] at this
    exact this
  subst hd
  rfl

theorem elem_init [Zero T] (i j : Nat) : (init : StaticMatrix T Rows Cols).elem i j = 0 := by
  unfold elem init
  simp only [List.getD_eq_getElem?_getD, List.getElem?_replicate]
  split <;> rfl

/-! ## The element-wise loops -/

/-- A pair of nested loops writing `f row col` to element `(row, col)`. -/
theorem elem_loops_write [Zero T] (f : Nat → Nat → T) (m0 : StaticMatrix T Rows Cols)
    {i j : Nat} (hi : i < Rows) (hj : j < Cols) :
    (forLoop Rows (fun row a =>
      forLoop Cols (fun col a => a.setElem row col (f row col)) a) m0).elem i j = f i j := by
  have inner : ∀ row (a : StaticMatrix T Rows Cols),
      (forLoop Cols (fun col a => a.setElem row col (f row col)) a).elem i j
        = if row = i then (fun _ => f i j) (a.elem i j) else a.elem i j := by
    intro row a
    have h := forLoop_obs (fun a : StaticMatrix T Rows Cols => a.elem i j) Cols
      (fun col a => a.setElem row col (f row col)) (fun col => row = i ∧ col = j)
      (fun _ _ => f i j)
      (fun k hk a => by
        show (a.setElem row k (f row k)).elem i j = _
        rw [elem_setElem a _ hk hi hj]
        by_cases h : row = i ∧ k = j
        · obtain ⟨rfl, rfl⟩ := h; simp
        · simp [h])
      (fun k k2 _ _ h1 h2 => by rw [h1.2, h2.2]) a
    by_cases hr : row = i
    · rw [if_pos hr]; exact h.1 j hj ⟨hr, rfl⟩
    · rw [if_neg hr]; exact h.2 (fun k _ hk => hr hk.1)
  have h := forLoop_obs (fun a : StaticMatrix T Rows Cols => a.elem i j) Rows
    (fun row a => forLoop Cols (fun col a => a.setElem row col (f row col)) a)
    (fun row => row = i) (fun _ _ => f i j) (fun k _ a => inner k a)
    (fun k k2 _ _ h1 h2 => by rw [h1, h2]) m0
  exact h.1 i hi rfl

theorem elem_mul_by_element [Zero T] [Mul T] (m rhs : StaticMatrix T Rows Cols) {i j : Nat}
    (hi : i < Rows) (hj : j < Cols) :
    (m.mul_by_element rhs).elem i j = m.elem i j * rhs.elem i j :=
  elem_loops_write (fun row col => m.elem row col * rhs.elem row col) init hi hj

theorem elem_transpose [Zero T] (m : StaticMatrix T Rows Cols) {i j : Nat}
    (hi : i < Cols) (hj : j < Rows) : m.transpose.elem i j = m.elem j i := by
  have inner : ∀ row, row < Rows → ∀ (a : StaticMatrix T Cols Rows),
      (forLoop Cols (fun col a => a.setElem col row (m.elem row col)) a).elem i j
        = if row = j then (fun _ => m.elem j i) (a.elem i j) else a.elem i j := by
    intro row hrow a
    have h := forLoop_obs (fun a : StaticMatrix T Cols Rows => a.elem i j) Cols
      (fun col a => a.setElem col row (m.elem row col)) (fun col => col = i ∧ row = j)
      (fun _ _ => m.elem j i)
      (fun k _ a => by
        show (a.setElem k row (m.elem row k)).elem i j = _
        rw [elem_setElem a _ hrow hi hj]
        by_cases h : k = i ∧ row = j
        · obtain ⟨rfl, rfl⟩ := h; simp
        · simp [h])
      (fun k k2 _ _ h1 h2 => by rw [h1.1, h2.1]) a
    by_cases hr : row = j
    · rw [if_pos hr]; exact h.1 i hi ⟨rfl, hr⟩
    · rw [if_neg hr]; exact h.2 (fun k _ hk => hr hk.2)
  have h := forLoop_obs (fun a : StaticMatrix T Cols Rows => a.elem i j) Rows
    (fun row a => forLoop Cols (fun col a => a.setElem col row (m.elem row col)) a)
    (fun row => row = j) (fun _ _ => m.elem j i) (fun k hk a => inner k hk a)
    (fun k k2 _ _ h1 h2 => by rw [h1, h2]) init
  exact h.1 j hj rfl

theorem elem_identity [Zero T] [One T] {n : Nat} (m : StaticMatrix T n n) {i j : Nat}
    (hi : i < n) (hj : j < n) : m.identity.elem i j = if i = j then 1 else 0 := by
  have inner : ∀ row (a : StaticMatrix T n n),
      (forLoop n (fun col a => if row = col then a.setElem row col 1 else a) a).elem i j
        = if row = i ∧ i = j then (fun _ => (1 : T)) (a.elem i j) else a.elem i j := by
    intro row a
    have h := forLoop_obs (fun a : StaticMatrix T n n => a.elem i j) n
      (fun col a => if row = col then a.setElem row col 1 else a)
      (fun col => row = col ∧ row = i ∧ col = j) (fun _ _ => (1 : T))
      (fun k hk a => by
        show (if row = k then a.setElem row k 1 else a).elem i j = _
        by_cases hrk : row = k
        · rw [if_pos hrk, elem_setElem a _ hk hi hj]
          simp [hrk]
        · rw [if_neg hrk]
          simp [hrk])
      (fun k k2 _ _ h1 h2 => by rw [← h1.1, ← h2.1]) a
    by_cases hr : row = i ∧ i = j
    · rw [if_pos hr]
      exact h.1 j hj ⟨by rw [hr.1, hr.2], hr.1, rfl⟩
    · rw [if_neg hr]
      exact h.2 (fun k _ hk => hr ⟨hk.2.1, by rw [← hk.2.1, hk.1, hk.2.2]⟩)
  have h := forLoop_obs (fun a : StaticMatrix T n n => a.elem i j) n
    (fun row a => forLoop n (fun col a => if row = col then a.setElem row col 1 else a) a)
    (fun row => row = i ∧ i = j) (fun _ _ => (1 : T)) (fun k _ a => inner k a)
    (fun k k2 _ _ h1 h2 => by rw [h1.1, h2.1]) init
  by_cases hij : i = j
  · rw [if_pos hij]
    exact h.1 i hi ⟨rfl, hij⟩
  · rw [if_neg hij]
    exact (h.2 (fun k _ hk => hij hk.2)).trans (elem_init i j)

theorem elem_fillCtor [Zero T] [DecidableEq T] (v : T) {i j : Nat} (hi : i < Rows)
    (hj : j < Cols) : (fillCtor v : StaticMatrix T Rows Cols).elem i j = v := by
  unfold fillCtor
  by_cases hv : v = 0
  · rw [if_neg (not_not.mpr hv), elem_init, hv]
  · rw [if_pos hv]
    have hlt : i * Cols + j < Rows * Cols := offset_lt hi hj
    have h := forLoop_obs (fun a : StaticMatrix T Rows Cols => a.elem i j) (Rows * Cols)
      (fun k a => a.setData k v) (fun k => k = i * Cols + j) (fun _ _ => v)
      (fun k _ a => by
        show (a.setData k v).elem i j = _
        unfold elem setData
        simp only [List.getD_eq_getElem?_getD, List.getElem?_set]
        by_cases hk : k = i * Cols + j
        · subst hk
          simp [a.size_ok, hlt]
        · simp [hk])
      (fun k k2 _ _ h1 h2 => by rw [h1, h2]) init
    exact h.1 _ hlt rfl

theorem elem_calc_complements [CommRing T] {n : Nat} (m : StaticMatrix T n n) {i j : Nat}
    (hi : i < n) (hj : j < n) :
    m.calc_complements.elem i j
      = if (i + j) % 2 ≠ 0 then -(m.minor_item i j) else m.minor_item i j := by
  have hbody : ∀ row, row < n → ∀ col, col < n → ∀ a : StaticMatrix T n n,
      (if (row + col) % 2 ≠ 0 then
        (a.setElem row col (m.minor_item row col)).setElem row col
          (-((a.setElem row col (m.minor_item row col)).elem row col))
       else a.setElem row col (m.minor_item row col))
      = a.setElem row col
          (if (row + col) % 2 ≠ 0 then -(m.minor_item row col) else m.minor_item row col) := by
    intro row hrow col hcol a
    by_cases hodd : (row + col) % 2 ≠ 0
    · rw [if_pos hodd, if_pos hodd, elem_setElem a _ hcol hrow hcol]
      simp only [and_self, if_true]
      unfold setElem
      simp [List.set_set]
    · rw [if_neg hodd, if_neg hodd]
  unfold calc_complements
  rw [forLoop_congr n _ (fun row a => forLoop n (fun col a => a.setElem row col
    (if (row + col) % 2 ≠ 0 then -(m.minor_item row col) else m.minor_item row col)) a) _
    (fun row hrow a => forLoop_congr n _ _ a (fun col hcol b => hbody row hrow col hcol b))]
  exact elem_loops_write
    (fun row col => if (row + col) % 2 ≠ 0 then -(m.minor_item row col) else m.minor_item row col)
    init hi hj

theorem elem_mul_matrix [Semiring T] {R K C : Nat} (lhs : StaticMatrix T R K)
    (rhs : StaticMatrix T K C) {i j : Nat} (hi : i < R) (hj : j < C) :
    (lhs.mul_matrix rhs).elem i j
      = ∑ k in Finset.range K, lhs.elem i k * rhs.elem k j := by
  have acc : ∀ (n row col : Nat), col < C → ∀ a : StaticMatrix T R C,
      (forLoop n (fun k a =>
        a.setElem row col (a.elem row col + lhs.elem row k * rhs.elem k col)) a).elem i j
        = if row = i ∧ col = j then
            a.elem i j + ∑ k in Finset.range n, lhs.elem i k * rhs.elem k j
          else a.elem i j := by
    intro n row col hcol a
    induction n with
    | zero => simp [forLoop]
    | succ k ih =>
      rw [forLoop_succ, elem_setElem _ _ hcol hi hj]
      by_cases h : row = i ∧ col = j
      · obtain ⟨rfl, rfl⟩ := h
        simp only [and_self, if_true] at ih ⊢
        rw [ih, Finset.sum_range_succ, add_assoc]
      · rw [if_neg h, if_neg h] at *
        exact ih
  have inner : ∀ row (a : StaticMatrix T R C),
      (forLoop C (fun col a => forLoop K (fun k a =>
        a.setElem row col (a.elem row col + lhs.elem row k * rhs.elem k col)) a) a).elem i j
        = if row = i then
            (fun x => x + ∑ k in Finset.range K, lhs.elem i k * rhs.elem k j) (a.elem i j)
          else a.elem i j := by
    intro row a
    have h := forLoop_obs (fun a : StaticMatrix T R C => a.elem i j) C
      (fun col a => forLoop K (fun k a =>
        a.setElem row col (a.elem row col + lhs.elem row k * rhs.elem k col)) a)
      (fun col => row = i ∧ col = j)
      (fun _ x => x + ∑ k in Finset.range K, lhs.elem i k * rhs.elem k j)
      (fun k hk a => acc K row k hk a)
      (fun k k2 _ _ h1 h2 => by rw [h1.2, h2.2]) a
    by_cases hr : row = i
    · rw [if_pos hr]; exact h.1 j hj ⟨hr, rfl⟩
    · rw [if_neg hr]; exact h.2 (fun k _ hk => hr hk.1)
  have h := forLoop_obs (fun a : StaticMatrix T R C => a.elem i j) R
    (fun row a => forLoop C (fun col a => forLoop K (fun k a =>
        a.setElem row col (a.elem row col + lhs.elem row k * rhs.elem k col)) a) a)
    (fun row => row = i)
    (fun _ x => x + ∑ k in Finset.range K, lhs.elem i k * rhs.elem k j)
    (fun k _ a => inner k a)
    (fun k k2 _ _ h1 h2 => by rw [h1, h2]) init
  have h2 := h.1 i hi rfl
  simp only [elem_init, zero_add] at h2
  exact h2

/-! ## The member `minor` -/

/-- The inner loop of `minor` after `n` destination columns: `skip_row` is untouched,
`skip_col` records whether `col` was met, and the columns written so far in row `r` hold
the source elements past the deleted column. -/
theorem minorCols_loop [Zero T] (m : StaticMatrix T Rows Cols) (col r : Nat)
    (st : MinorState T Rows Cols) (hst : st.skip_col = 0) (n : Nat) (hn : n ≤ Cols - 1) :
    let res := forLoop n (fun c (st : MinorState T Rows Cols) =>
      let st3 : MinorState T Rows Cols := if col = c then { st with skip_col := 1 } else st
      ({ st3 with
        minored := st3.minored.setElem r c (m.elem (r + st3.skip_row) (c + st3.skip_col)) } :
        MinorState T Rows Cols)) st
    res.skip_row = st.skip_row ∧ res.skip_col = (if col < n then 1 else 0) ∧
      ∀ i j, i < Rows - 1 → j < Cols - 1 →
        res.minored.elem i j
          = if r = i ∧ j < n then
              m.elem (r + st.skip_row) (j + if col ≤ j then 1 else 0)
            else st.minored.elem i j := by
  induction n with
  | zero =>
    refine ⟨rfl, ?_, ?_⟩
    · simpa [forLoop] using hst
    · intro i j _ _
      simp [forLoop]
  | succ k ih =>
    obtain ⟨h1, h2, h3⟩ := ih (Nat.le_of_succ_le hn)
    have hk : k < Cols - 1 := hn
    simp only [forLoop_succ]
    by_cases hck : col = k
    · subst hck
      simp only [if_true]
      refine ⟨h1, by simp, ?_⟩
      intro i j hi hj
      rw [elem_setElem _ _ hk hi hj, h3 i j hi hj, h1]
      by_cases hri : r = i
      · subst hri
        by_cases hjc : col = j
        · subst hjc; simp
        · by_cases hlt : j < col
          · have : ¬ col ≤ j := by omega
            have hne : ¬ (r = r ∧ col = j) := fun h => hjc h.2
            simp [hjc, hlt, Nat.lt_succ_of_lt hlt]
          · have h5 : ¬ j < col + 1 := by omega
            simp [hjc, hlt, h5]
      · have hne : ¬ (r = i ∧ col = j) := fun h => hri h.1
        simp [hne, hri]
    · simp only [if_neg hck]
      refine ⟨h1, ?_, ?_⟩
      · show (forLoop k _ st).skip_col = _
        rw [h2]
        by_cases hlt : col < k
        · simp [hlt, Nat.lt_succ_of_lt hlt]
        · have : ¬ col < k + 1 := by omega
          simp [hlt, this]
      · intro i j hi hj
        rw [elem_setElem _ _ hk hi hj, h3 i j hi hj, h1, h2]
        by_cases hri : r = i
        · subst hri
          by_cases hjk : k = j
          · subst hjk
            have hle : (col ≤ k) = (col < k) := by
              apply propext
              constructor
              · intro h; omega
              · intro h; omega
            simp [hle]
          · have hne : ¬ (r = r ∧ k = j) := fun h => hjk h.2
            by_cases hlt : j < k
            · simp [hjk, hlt, Nat.lt_succ_of_lt hlt]
            · have h5 : ¬ j < k + 1 := by omega
              simp [hjk, hlt, h5]
        · have hne : ¬ (r = i ∧ k = j) := fun h => hri h.1
          simp [hne, hri]

/-- The outer loop of `minor` after `n` destination rows: `skip_row` records whether `row`
was met, and the rows written so far hold the source elements past the deleted row and
column. -/
theorem minorLoops_loop [Zero T] (m : StaticMatrix T Rows Cols) (row col n : Nat)
    (hn : n ≤ Rows - 1) :
    let res := forLoop n (fun r (st : MinorState T Rows Cols) =>
      let st1 : MinorState T Rows Cols := if row = r then { st with skip_row := 1 } else st
      let st2 : MinorState T Rows Cols := { st1 with skip_col := 0 }
      minorCols m col r st2)
      ({ skip_row := 0, skip_col := 0, minored := init } : MinorState T Rows Cols)
    res.skip_row = (if row < n then 1 else 0) ∧
      ∀ i j, i < Rows - 1 → j < Cols - 1 →
        res.minored.elem i j
          = if i < n then
              m.elem (i + if row ≤ i then 1 else 0) (j + if col ≤ j then 1 else 0)
            else 0 := by
  induction n with
  | zero =>
    refine ⟨rfl, ?_⟩
    intro i j _ _
    simp [forLoop, elem_init]
  | succ k ih =>
    obtain ⟨h1, h2⟩ := ih (Nat.le_of_succ_le hn)
    simp only [forLoop_succ]
    generalize forLoop k (fun r (st : MinorState T Rows Cols) =>
      let st1 : MinorState T Rows Cols := if row = r then { st with skip_row := 1 } else st
      let st2 : MinorState T Rows Cols := { st1 with skip_col := 0 }
      minorCols m col r st2)
      ({ skip_row := 0, skip_col := 0, minored := init } : MinorState T Rows Cols) = prev
      at h1 h2 ⊢
    have hskip : (if row = k then ({ prev with skip_row := 1 } : MinorState T Rows Cols)
        else prev).skip_row = if row ≤ k then 1 else 0 := by
      by_cases hrk : row = k
      · simp [hrk]
      · rw [if_neg hrk, h1]
        by_cases hlt : row < k
        · simp [hlt, Nat.le_of_lt hlt]
        · have : ¬ row ≤ k := by omega
          simp [hlt, this]
    have hmin : (if row = k then ({ prev with skip_row := 1 } : MinorState T Rows Cols)
        else prev).minored = prev.minored := by
      by_cases hrk : row = k
      · simp [hrk]
      · rw [if_neg hrk]
    obtain ⟨g1, _, g3⟩ := minorCols_loop m col k
      ({ (if row = k then ({ prev with skip_row := 1 } : MinorState T Rows Cols) else prev) with
        skip_col := 0 } : MinorState T Rows Cols) rfl (Cols - 1) (Nat.le_refl _)
    refine ⟨?_, ?_⟩
    · show (minorCols m col k _).skip_row = _
      unfold minorCols
      rw [g1]
      show (if row = k then ({ prev with skip_row := 1 } : MinorState T Rows Cols)
        else prev).skip_row = _
      rw [hskip]
      by_cases hle : row ≤ k
      · simp [hle, Nat.lt_succ_of_le hle]
      · have : ¬ row < k + 1 := by omega
        simp [hle, this]
    · intro i j hi hj
      show (minorCols m col k _).minored.elem i j = _
      unfold minorCols
      rw [g3 i j hi hj]
      show (if k = i ∧ j < Cols - 1 then
          m.elem (k + (if row = k then ({ prev with skip_row := 1 } : MinorState T Rows Cols)
            else prev).skip_row) (j + if col ≤ j then 1 else 0)
        else (if row = k then ({ prev with skip_row := 1 } : MinorState T Rows Cols)
            else prev).minored.elem i j) = _
      rw [hskip, hmin, h2 i j hi hj]
      by_cases hki : k = i
      · subst hki
        simp [hj]
      · by_cases hlt : i < k
        · simp [hki, hlt, Nat.lt_succ_of_lt hlt]
        · have : ¬ i < k + 1 := by omega
          simp [hki, hlt, this]

/-- The member `minor(row, col)` deletes row `row` and column `col`. -/
theorem elem_minor [Zero T] (m : StaticMatrix T Rows Cols) (row col : Nat) {i j : Nat}
    (hi : i < Rows - 1) (hj : j < Cols - 1) :
    (m.minor row col).elem i j
      = m.elem (i + if row ≤ i then 1 else 0) (j + if col ≤ j then 1 else 0) := by
  have h := (minorLoops_loop m row col (Rows - 1) (Nat.le_refl _)).2 i j hi hj
  rw [if_pos hi] at h
  exact h

/-! ## The member `determinant` -/

theorem toMatrix_apply [Zero T] (m : StaticMatrix T Rows Cols) (i : Fin Rows) (j : Fin Cols) :
    m.toMatrix i j = m.elem i j := rfl

/-- The loop of `determinant()` for an extent above two: the accumulated value and the sign
after `k` columns. -/
theorem determinant_loop [CommRing T] {n : Nat} (m : StaticMatrix T (n + 3) (n + 3)) (k : Nat) :
    forLoop k (fun col (st : T × ℤ) =>
      let minored : StaticMatrix T (n + 2) (n + 2) := m.minor 0 col
      (st.1 + (st.2 : T) * m.elem 0 col * determinant (n + 2) minored, -st.2)) (0, 1)
    = (∑ col in Finset.range k,
        (-1) ^ col * m.elem 0 col * determinant (n + 2) (m.minor 0 col), (-1) ^ k) := by
  induction k with
  | zero => simp [forLoop]
  | succ c ih =>
    rw [forLoop_succ, ih, Finset.sum_range_succ]
    simp only [pow_succ, mul_neg, mul_one, Int.cast_pow, Int.cast_neg, Int.cast_one]

/-- Cofactor expansion along row 0, as the source computes it for an extent above two. -/
theorem determinant_expand [CommRing T] {n : Nat} (m : StaticMatrix T (n + 3) (n + 3)) :
    determinant (n + 3) m
      = ∑ col in Finset.range (n + 3),
          (-1) ^ col * m.elem 0 col * determinant (n + 2) (m.minor 0 col) := by
  show (forLoop (n + 3) _ (0, 1)).1 = _
  rw [determinant_loop m (n + 3)]

theorem toMatrix_minor [Zero T] {k : Nat} (m : StaticMatrix T (k + 1) (k + 1))
    (r c : Fin (k + 1)) :
    (m.minor r c : StaticMatrix T k k).toMatrix
      = m.toMatrix.submatrix (Fin.succAbove r) (Fin.succAbove c) := by
  ext i j
  rw [Matrix.submatrix_apply, toMatrix_apply, toMatrix_apply]
  have h := elem_minor m r c (i := i) (j := j) i.isLt j.isLt
  rw [h]
  have hv : ∀ (p : Fin (k + 1)) (x : Fin k),
      (x : Nat) + (if (p : Nat) ≤ x then 1 else 0) = (Fin.succAbove p x : Fin (k + 1)) := by
    intro p x
    unfold Fin.succAbove
    by_cases hlt : Fin.castSucc x < p
    · have h1 : (x : Nat) < p := hlt
      have h2 : ¬ (p : Nat) ≤ x := by omega
      simp [hlt, h2]
    · have h1 : ¬ (x : Nat) < p := hlt
      have h2 : (p : Nat) ≤ x := by omega
      simp [hlt, h2]
  rw [hv r i, hv c j]

/-- The recursive `determinant()` is the determinant of the matrix. -/
theorem determinant_eq_det_succ [CommRing T] :
    ∀ (n : Nat) (m : StaticMatrix T (n + 1) (n + 1)),
      determinant (n + 1) m = Matrix.det m.toMatrix := by
  intro n
  induction n with
  | zero =>
    intro m
    rw [Matrix.det_fin_one]
    rfl
  | succ k ih =>
    intro m
    cases k with
    | zero =>
      rw [Matrix.det_fin_two]
      simp only [toMatrix_apply]
      show m.elem 0 0 * m.elem 1 1 - m.elem 1 0 * m.elem 0 1 = _
      simp only [Fin.val_zero, Fin.val_one]
      ring
    | succ j =>
      rw [determinant_expand, Matrix.det_succ_row_zero,
        ← Fin.sum_univ_eq_sum_range (fun col =>
          (-1) ^ col * m.elem 0 col * determinant (j + 2) (m.minor 0 col)) (j + 3)]
      refine Finset.sum_congr rfl (fun c _ => ?_)
      have hsub : m.toMatrix.submatrix Fin.succ (Fin.succAbove c)
          = (m.minor (0 : Fin (j + 3)) c : StaticMatrix T (j + 2) (j + 2)).toMatrix := by
        rw [toMatrix_minor, Fin.succAbove_zero]
      rw [hsub, ← ih, toMatrix_apply]
      rfl

theorem determinant_eq_det [CommRing T] (n : Nat) (hn : 1 ≤ n) (m : StaticMatrix T n n) :
    determinant n m = Matrix.det m.toMatrix := by
  obtain ⟨k, rfl⟩ : ∃ k, n = k + 1 := ⟨n - 1, by omega⟩
  exact determinant_eq_det_succ k m

/-! ## Cofactors and the inverse -/

/-- The complements matrix holds the cofactors: element `(i, j)` is the adjugate's `(j, i)`. -/
theorem calc_complements_eq_adjugate [CommRing T] {k : Nat}
    (m : StaticMatrix T (k + 2) (k + 2)) (i j : Fin (k + 2)) :
    m.calc_complements.elem i j = Matrix.adjugate m.toMatrix j i := by
  rw [elem_calc_complements m i.isLt j.isLt, Matrix.adjugate_fin_succ_eq_det_submatrix,
    ← toMatrix_minor m i j, ← determinant_eq_det_succ k]
  have hitem : m.minor_item i j
      = determinant (k + 1) (m.minor i j : StaticMatrix T (k + 1) (k + 1)) := rfl
  rw [hitem]
  rcases Nat.even_or_odd ((i : Nat) + j) with he | ho
  · have h2 : ¬ ((i : Nat) + j) % 2 ≠ 0 := by
      rw [Nat.even_iff] at he
      omega
    rw [if_neg h2, he.neg_one_pow, one_mul]
  · have h2 : ((i : Nat) + j) % 2 ≠ 0 := by
      rw [Nat.odd_iff] at ho
      omega
    rw [if_pos h2, ho.neg_one_pow, neg_one_mul]

theorem inverse_of_ne_zero [CommRing T] [Fundamental T] [DecidableEq T] {n : Nat}
    (m : StaticMatrix T n n) (h : determinant n m ≠ 0) :
    m.inverse = m.calc_complements.transpose.mul_by_element
      (fillCtor (Fundamental.quot 1 (determinant n m))) := by
  unfold inverse
  exact if_pos h

theorem inverse_of_eq_zero [CommRing T] [Fundamental T] [DecidableEq T] {n : Nat}
    (m : StaticMatrix T n n) (h : determinant n m = 0) : m.inverse = init := by
  unfold inverse
  simp only [h, ne_eq, not_true_eq_false, if_false]
  rfl

theorem elem_inverse_rat {n : Nat} (m : StaticMatrix ℚ n n) (h : determinant n m ≠ 0)
    {i j : Nat} (hi : i < n) (hj : j < n) :
    m.inverse.elem i j = m.calc_complements.elem j i * (1 / determinant n m) := by
  rw [inverse_of_ne_zero m h, elem_mul_by_element _ _ hi hj, elem_transpose _ hi hj,
    elem_fillCtor _ hi hj]
  rfl

/-- Over the rationals, the rows of `M` against the columns of `M.inverse()` give the
identity. -/
theorem mul_inverse_rat {k : Nat} (m : StaticMatrix ℚ (k + 2) (k + 2))
    (h : determinant (k + 2) m ≠ 0) (i j : Fin (k + 2)) :
    ∑ x in Finset.range (k + 2), m.elem i x * m.inverse.elem x j
      = if i = j then 1 else 0 := by
  rw [← Fin.sum_univ_eq_sum_range (fun x => m.elem i x * m.inverse.elem x j) (k + 2)]
  have hterm : ∀ x : Fin (k + 2), m.elem i x * m.inverse.elem x j
      = m.toMatrix i x * Matrix.adjugate m.toMatrix x j * (1 / determinant (k + 2) m) := by
    intro x
    rw [elem_inverse_rat m h x.isLt j.isLt, calc_complements_eq_adjugate, toMatrix_apply,
      mul_assoc]
  rw [Finset.sum_congr rfl (fun x _ => hterm x), ← Finset.sum_mul, ← Matrix.mul_apply,
    Matrix.mul_adjugate, ← determinant_eq_det_succ (k + 1) m, Matrix.smul_apply,
    Matrix.one_apply, smul_eq_mul]
  by_cases hij : i = j
  · rw [if_pos hij, mul_one]
    exact mul_one_div_cancel h
  · rw [if_neg hij, mul_zero, zero_mul]

/-! ## The determinant: claims -/

/-- C1: for every extent `n ≥ 1` and every `n × n` integer matrix `M`, `determinant()` is the
determinant of `M` (the Leibniz sum over permutations, `Matrix.det`); for `n = 1` it is the
sole element, for `n = 2` the closed form, and for `n > 2` the sum over `col = 0..n-1` of
`sign(col) * M(0, col) * determinant(minor(0, col))` with `sign(col) = (-1)^col`. -/
theorem determinant_correct (n : Nat) (hn : 1 ≤ n) (M : StaticMatrix ℤ n n) :
    determinant n M = Matrix.det M.toMatrix ∧
      determinant n M
        = ∑ σ : Equiv.Perm (Fin n), (Equiv.Perm.sign σ : ℤ) * ∏ i : Fin n, M.elem (σ i) i ∧
      (n = 1 → determinant n M = M.elem 0 0) ∧
      (n = 2 → determinant n M = M.elem 0 0 * M.elem 1 1 - M.elem 1 0 * M.elem 0 1) ∧
      (2 < n → determinant n M
        = ∑ col in Finset.range n,
            (-1) ^ col * M.elem 0 col * determinant (n - 1) (M.minor 0 col)) := by
  refine ⟨determinant_eq_det n hn M, ?_, ?_, ?_, ?_⟩
  · rw [determinant_eq_det n hn M, Matrix.det_apply']
    rfl
  · intro h
    subst h
    rfl
  · intro h
    subst h
    rfl
  · intro h
    obtain ⟨k, rfl⟩ : ∃ k, n = k + 3 := ⟨n - 3, by omega⟩
    exact determinant_expand M

/-- C1, at the matrix `[[2, 0, 1], [1, 3, 2], [1, 1, 2]]`, of determinant `6`. -/
theorem determinant_correct_witness :
    1 ≤ 3 ∧ determinant 3 (mk33 (2 : ℤ) 0 1 1 3 2 1 1 2)
      = Matrix.det (mk33 (2 : ℤ) 0 1 1 3 2 1 1 2).toMatrix :=
  ⟨by decide, (determinant_correct 3 (by decide) (mk33 (2 : ℤ) 0 1 1 3 2 1 1 2)).1⟩

/-- C4: an integer matrix with two equal rows `i ≠ j` (so of extent `n ≥ 2`) has
`determinant()` equal to `0`. -/
theorem determinant_eq_zero_of_equal_rows (n : Nat) (hn : 2 ≤ n) (M : StaticMatrix ℤ n n)
    (i j : Nat) (hi : i < n) (hj : j < n) (hij : i ≠ j)
    (hrows : ∀ c, c < n → M.elem i c = M.elem j c) : determinant n M = 0 := by
  rw [determinant_eq_det n (Nat.le_of_succ_le hn) M]
  apply Matrix.det_zero_of_row_eq (i := ⟨i, hi⟩) (j := ⟨j, hj⟩)
  · intro h
    exact hij (congrArg Fin.val h)
  · funext c
    exact hrows c c.isLt

/-- C4, at the matrix `[[1, 2, 3], [4, 5, 6], [1, 2, 3]]` with rows `0` and `2`. -/
theorem determinant_eq_zero_of_equal_rows_witness :
    (2 ≤ 3 ∧ 0 < 3 ∧ 2 < 3 ∧ 0 ≠ 2 ∧
      ∀ c, c < 3 → (mk33 (1 : ℤ) 2 3 4 5 6 1 2 3).elem 0 c
        = (mk33 (1 : ℤ) 2 3 4 5 6 1 2 3).elem 2 c) ∧
      determinant 3 (mk33 (1 : ℤ) 2 3 4 5 6 1 2 3) = 0 :=
  ⟨⟨by decide, by decide, by decide, by decide, by decide⟩,
    determinant_eq_zero_of_equal_rows 3 (by decide) (mk33 (1 : ℤ) 2 3 4 5 6 1 2 3) 0 2
      (by decide) (by decide) (by decide) (by decide)⟩

/-- C5: for every `2 × 2` integer matrix `[[a, b], [c, d]]`, `determinant()` is exactly
`a * d - b * c`; for `[[1, 2], [3, 4]]` it is `-2`. -/
theorem determinant_two_by_two :
    (∀ a b c d : ℤ, determinant 2 (mk22 a b c d) = a * d - b * c) ∧
      (∀ M : StaticMatrix ℤ 2 2,
        determinant 2 M = M.elem 0 0 * M.elem 1 1 - M.elem 0 1 * M.elem 1 0) ∧
      determinant 2 (mk22 (1 : ℤ) 2 3 4) = -2 := by
  refine ⟨?_, ?_, by decide⟩
  · intro a b c d
    show a * d - c * b = a * d - b * c
    ring
  · intro M
    show M.elem 0 0 * M.elem 1 1 - M.elem 1 0 * M.elem 0 1 = _
    ring

/-! ## The inverse: claims -/

/-- C2: for every extent `n ≥ 2` and every `n × n` rational matrix `M` with
`determinant() ≠ 0`, `inverse()` is `transpose(calc_complements())` multiplied element-wise
by `1 / determinant()`, and the product of `M` with it, `Σ_k M(i, k) * inverse(k, j)`, is the
identity matrix. -/
theorem mul_inverse_eq_identity (n : Nat) (hn : 2 ≤ n) (M : StaticMatrix ℚ n n)
    (hdet : determinant n M ≠ 0) :
    M.inverse = M.calc_complements.transpose.mul_by_element (fillCtor (1 / determinant n M)) ∧
      (∀ i j, i < n → j < n →
        M.inverse.elem i j = M.calc_complements.elem j i * (1 / determinant n M)) ∧
      ∀ i j, i < n → j < n →
        ∑ k in Finset.range n, M.elem i k * M.inverse.elem k j = if i = j then 1 else 0 := by
  refine ⟨inverse_of_ne_zero M hdet, fun i j hi hj => elem_inverse_rat M hdet hi hj, ?_⟩
  intro i j hi hj
  obtain ⟨k, rfl⟩ : ∃ k, n = k + 2 := ⟨n - 2, by omega⟩
  have h := mul_inverse_rat M hdet ⟨i, hi⟩ ⟨j, hj⟩
  simp only [Fin.mk.injEq] at h
  exact h

/-- C2, at the matrix `[[1, 2], [0, 1]]`, whose determinant is `1`. -/
theorem mul_inverse_eq_identity_witness :
    (2 ≤ 2 ∧ determinant 2 (mk22 (1 : ℚ) 2 0 1) ≠ 0) ∧
      ∀ i j, i < 2 → j < 2 →
        ∑ k in Finset.range 2,
            (mk22 (1 : ℚ) 2 0 1).elem i k * (mk22 (1 : ℚ) 2 0 1).inverse.elem k j
          = if i = j then 1 else 0 :=
  ⟨⟨by decide, by simp [determinant, elem, mk22]⟩,
    (mul_inverse_eq_identity 2 (by decide) (mk22 (1 : ℚ) 2 0 1)
      (by simp [determinant, elem, mk22])).2.2⟩

/-- C3: for every square matrix `M` whose `determinant()` is exactly zero, `inverse()`
returns (it is a total function, nothing is thrown) the matrix `zero()` of the same shape,
whose every element is zero. -/
theorem inverse_of_zero_determinant [CommRing T] [Fundamental T] [DecidableEq T] (n : Nat)
    (M : StaticMatrix T n n) (hdet : determinant n M = 0) :
    M.inverse = M.zero ∧ M.inverse.rows = M.rows ∧ M.inverse.cols = M.cols ∧
      (∀ i j, M.inverse.elem i j = 0) ∧ M.inverse.data_ = List.replicate (n * n) 0 := by
  rw [inverse_of_eq_zero M hdet]
  exact ⟨rfl, rfl, rfl, fun i j => elem_init i j, rfl⟩

/-- C3, at the singular matrix `[[1, 2], [2, 4]]`. -/
theorem inverse_of_zero_determinant_witness :
    determinant 2 (mk22 (1 : ℤ) 2 2 4) = 0 ∧
      (mk22 (1 : ℤ) 2 2 4).inverse = (mk22 (1 : ℤ) 2 2 4).zero :=
  ⟨by decide, (inverse_of_zero_determinant 2 (mk22 (1 : ℤ) 2 2 4) (by decide)).1⟩

/-! ## Transpose: claims -/

/-- C6: for every `R × C` matrix `M` (square or not), `M.transpose().transpose()` has the
extents of `M` and equals `M` element for element. -/
theorem transpose_transpose [Zero T] (R C : Nat) (M : StaticMatrix T R C) :
    M.transpose.transpose = M ∧
      M.transpose.transpose.rows = R ∧ M.transpose.transpose.cols = C ∧
      ∀ row col, row < R → col < C → M.transpose.transpose.elem row col = M.elem row col := by
  have h : ∀ row col, row < R → col < C →
      M.transpose.transpose.elem row col = M.elem row col := by
    intro row col hrow hcol
    rw [elem_transpose _ hrow hcol, elem_transpose _ hcol hrow]
  exact ⟨ext_elem _ _ h, rfl, rfl, h⟩

/-- C7: for every `R × C` matrix `M`, `transpose()` returns a `C × R` matrix `T` with
`T(col, row) = M(row, col)` for every `row < R` and `col < C`; it is a function of `M`, which
it does not modify; for `[[1, 2], [3, 4]]` it returns `[[1, 3], [2, 4]]`. -/
theorem transpose_spec [Zero T] (R C : Nat) (M : StaticMatrix T R C) :
    M.transpose.rows = C ∧ M.transpose.cols = R ∧ M.transpose.size = C * R ∧
      (∀ row col, row < R → col < C → M.transpose.elem col row = M.elem row col) ∧
      (mk22 (1 : ℤ) 2 3 4).transpose = mk22 1 3 2 4 := by
  refine ⟨rfl, rfl, rfl, ?_, by decide⟩
  intro row col hrow hcol
  exact elem_transpose M hcol hrow

/-! ## The matrix product: claims -/

/-- C8: for every `R × K` matrix `A` and `K × C` matrix `B` with exact elements, the
matrix-matrix `operator*` returns the `R × C` matrix `P` with
`P(i, j) = Σ_{k < K} A(i, k) * B(k, j)`; for `[[1, 2], [3, 4]]` and `[[5, 6], [7, 8]]` it
returns `[[19, 22], [43, 50]]`. -/
theorem operator_mul_spec [CommRing T] (R K C : Nat) (A : StaticMatrix T R K)
    (B : StaticMatrix T K C) :
    (A.operator_mul B).rows = R ∧ (A.operator_mul B).cols = C ∧
      (∀ i j, i < R → j < C →
        (A.operator_mul B).elem i j = ∑ k in Finset.range K, A.elem i k * B.elem k j) ∧
      (mk22 (1 : ℤ) 2 3 4).operator_mul (mk22 5 6 7 8) = mk22 19 22 43 50 := by
  refine ⟨rfl, rfl, ?_, by decide⟩
  intro i j hi hj
  exact elem_mul_matrix A B hi hj

/-- C9: for every `n × n` matrix `M` with exact elements, `M.identity() * M` and
`M * M.identity()` both equal `M`, and `identity()` has one on the diagonal and zero
elsewhere. -/
theorem identity_mul_and_mul_identity [CommRing T] (n : Nat) (M : StaticMatrix T n n) :
    M.identity.operator_mul M = M ∧ M.operator_mul M.identity = M ∧
      ∀ row col, row < n → col < n → M.identity.elem row col = if row = col then 1 else 0 := by
  refine ⟨?_, ?_, fun row col hrow hcol => elem_identity M hrow hcol⟩
  · apply ext_elem
    intro i j hi hj
    show (M.identity.mul_matrix M).elem i j = _
    rw [elem_mul_matrix _ _ hi hj,
      Finset.sum_congr rfl (fun k hk => by
        rw [elem_identity M hi (Finset.mem_range.mp hk)])]
    simp [Finset.sum_ite_eq, hi]
  · apply ext_elem
    intro i j hi hj
    show (M.mul_matrix M.identity).elem i j = _
    rw [elem_mul_matrix _ _ hi hj,
      Finset.sum_congr rfl (fun k hk => by
        rw [elem_identity M (Finset.mem_range.mp hk) hj])]
    simp [Finset.sum_ite_eq, hj]

/-! ## Checked access: claims -/

/-- C10: for every `R × C` matrix `M` and all indices, `at(row, col)` throws the
out-of-range error exactly when `row ≥ R` or `col ≥ C` (so `at(R, 0)` and `at(0, C)` throw),
and otherwise returns the element stored at the row-major offset `row * C + col`, which is
what the unchecked accessor returns. -/
theorem at_spec [Zero T] (R C : Nat) (M : StaticMatrix T R C) (row col : Nat) :
    ((∃ e, M.at_ row col = Except.error e) ↔ (row ≥ R ∨ col ≥ C)) ∧
      ((row ≥ R ∨ col ≥ C) → M.at_ row col
        = Except.error (Error.out_of_range "row or col is out of matrix bounds")) ∧
      (∃ e, M.at_ R 0 = Except.error e) ∧ (∃ e, M.at_ 0 C = Except.error e) ∧
      (¬ (row ≥ R ∨ col ≥ C) →
        M.at_ row col = Except.ok (M.elem row col) ∧
          M.data_[row * C + col]? = some (M.elem row col)) := by
  refine ⟨?_, ?_, ?_, ?_, ?_⟩
  · unfold at_
    by_cases h : row ≥ R ∨ col ≥ C
    · rw [if_pos h]
      exact ⟨fun _ => h, fun _ => ⟨_, rfl⟩⟩
    · rw [if_neg h]
      constructor
      · intro h2
        obtain ⟨e, he⟩ := h2
        cases he
      · intro h2
        exact absurd h2 h
  · intro h
    unfold at_
    rw [if_pos h]
  · exact ⟨_, by unfold at_; rw [if_pos (Or.inl (Nat.le_refl R))]⟩
  · exact ⟨_, by unfold at_; rw [if_pos (Or.inr (Nat.le_refl C))]⟩
  · intro h
    have hrow : row < R := by omega
    have hcol : col < C := by omega
    have hlt : row * C + col < M.data_.length := by rw [M.size_ok]; exact offset_lt hrow hcol
    refine ⟨by unfold at_; rw [if_neg h], ?_⟩
    rw [elem_eq_getElem M hlt]
    exact List.getElem?_eq_getElem hlt

/-! ## Construction: claims -/

/-- The fold of `std::copy` from destination offset `k`: the offset advances by the number of
elements copied, and the storage holds the copied elements at the offsets `k, k + 1, ...`
inside it, and its old contents elsewhere. -/
theorem copy_fold (l : List T) :
    ∀ (k : Nat) (m : StaticMatrix T Rows Cols) (idx : Nat),
      (l.foldl (fun (st : Nat × StaticMatrix T Rows Cols) x =>
          (st.1 + 1, st.2.setData st.1 x)) (k, m)).2.data_[idx]?
        = if k ≤ idx ∧ idx < k + l.length ∧ idx < m.data_.length then l[idx - k]?
          else m.data_[idx]? := by
  induction l with
  | nil =>
    intro k m idx
    have h : ¬ (k ≤ idx ∧ idx < k + 0 ∧ idx < m.data_.length) := by omega
    simp only [List.foldl_nil, List.length_nil, if_neg h]
  | cons x xs ih =>
    intro k m idx
    rw [List.foldl_cons, ih (k + 1) (m.setData k x) idx]
    have hlen : (m.setData k x).data_.length = m.data_.length := by
      unfold setData
      exact List.length_set _ _ _
    have hset : (m.setData k x).data_[idx]?
        = if k = idx then (if k < m.data_.length then some x else none) else m.data_[idx]? := by
      unfold setData
      simp only [List.getElem?_set]
    rw [hlen, hset, List.length_cons]
    by_cases h1 : k + 1 ≤ idx ∧ idx < k + 1 + xs.length ∧ idx < m.data_.length
    · have h2 : k ≤ idx ∧ idx < k + (xs.length + 1) ∧ idx < m.data_.length := by omega
      have h3 : idx - k = (idx - (k + 1)) + 1 := by omega
      rw [if_pos h1, if_pos h2, h3, List.getElem?_cons_succ]
    · rw [if_neg h1]
      by_cases hk : k = idx
      · subst hk
        by_cases hlt : k < m.data_.length
        · have h2 : k ≤ k ∧ k < k + (xs.length + 1) ∧ k < m.data_.length := by omega
          rw [if_pos rfl, if_pos hlt, if_pos h2, Nat.sub_self, List.getElem?_cons_zero]
        · have h2 : ¬ (k ≤ k ∧ k < k + (xs.length + 1) ∧ k < m.data_.length) := by omega
          rw [if_pos rfl, if_neg hlt, if_neg h2]
          exact (List.getElem?_eq_none (by omega)).symm
      · have h2 : ¬ (k ≤ idx ∧ idx < k + (xs.length + 1) ∧ idx < m.data_.length) := by omega
        rw [if_neg hk, if_neg h2]

/-- Copying a container of exactly `Rows * Cols` elements makes the storage the container. -/
theorem data_copy (l : List T) (m : StaticMatrix T Rows Cols) (h : l.length = Rows * Cols) :
    (copy l m).data_ = l := by
  apply List.ext_getElem?
  intro idx
  unfold copy
  rw [copy_fold l 0 m idx, m.size_ok, h]
  by_cases hlt : idx < Rows * Cols
  · have h2 : 0 ≤ idx ∧ idx < 0 + Rows * Cols ∧ idx < Rows * Cols := by omega
    rw [if_pos h2, Nat.sub_zero]
  · have h2 : ¬ (0 ≤ idx ∧ idx < 0 + Rows * Cols ∧ idx < Rows * Cols) := by omega
    rw [if_neg h2, List.getElem?_eq_none (by rw [m.size_ok]; omega),
      List.getElem?_eq_none (by rw [h]; omega)]

/-- C11: for every variable-length sequence `s`, the bulk constructor throws the size-mismatch
`std::logic_error` exactly when `length(s) ≠ R * C` (as for `R * C = 4` with three elements),
and then constructs no matrix; when `length(s) = R * C` it succeeds, and element `(row, col)`
of the matrix is `s[row * C + col]`. -/
theorem containerCtor_spec [Zero T] (R C : Nat) (s : List T) :
    ((∃ e, (containerCtor s : Except Error (StaticMatrix T R C)) = Except.error e)
        ↔ s.length ≠ R * C) ∧
      (s.length ≠ R * C →
        (containerCtor s : Except Error (StaticMatrix T R C))
            = Except.error (Error.logic_error "container has more/less items than in matrix") ∧
          ∀ m, (containerCtor s : Except Error (StaticMatrix T R C)) ≠ Except.ok m) ∧
      (s.length = R * C →
        ∃ m : StaticMatrix T R C, containerCtor s = Except.ok m ∧ m.data_ = s ∧
          ∀ row col, row < R → col < C → s[row * C + col]? = some (m.elem row col)) ∧
      (containerCtor [1, 2, 3] : Except Error (StaticMatrix ℤ 2 2))
        = Except.error (Error.logic_error "container has more/less items than in matrix") := by
  have hbad : s.length ≠ R * C →
      (containerCtor s : Except Error (StaticMatrix T R C))
        = Except.error (Error.logic_error "container has more/less items than in matrix") := by
    intro h
    unfold containerCtor
    rw [if_pos (fun h2 => h h2.symm)]
  have hgood : s.length = R * C →
      (containerCtor s : Except Error (StaticMatrix T R C)) = Except.ok (copy s init) := by
    intro h
    unfold containerCtor
    rw [if_neg (not_not.mpr h.symm)]
  refine ⟨?_, ?_, ?_, rfl⟩
  · constructor
    · intro h hlen
      obtain ⟨e, he⟩ := h
      rw [hgood hlen] at he
      cases he
    · intro h
      exact ⟨_, hbad h⟩
  · intro h
    refine ⟨hbad h, ?_⟩
    intro m hm
    rw [hbad h] at hm
    cases hm
  · intro h
    refine ⟨copy s init, hgood h, data_copy s init h, ?_⟩
    intro row col hrow hcol
    have hlt : row * C + col < (copy s (init : StaticMatrix T R C)).data_.length := by
      rw [(copy s init).size_ok]
      exact offset_lt hrow hcol
    rw [elem_eq_getElem _ hlt, ← List.getElem?_eq_getElem hlt, data_copy s init h]

/-- C12: for every fill value `v`, zero included, the fill-constructed `R × C` matrix has
every element equal to `v`, and `rows() = R`, `cols() = C`, `size() = R * C`. -/
theorem fillCtor_spec [Zero T] [DecidableEq T] (R C : Nat) (v : T) :
    (∀ row col, row < R → col < C → (fillCtor v : StaticMatrix T R C).elem row col = v) ∧
      (fillCtor v : StaticMatrix T R C).data_ = List.replicate (R * C) v ∧
      (∀ row col, row < R → col < C → (fillCtor (0 : T) : StaticMatrix T R C).elem row col = 0) ∧
      (fillCtor v : StaticMatrix T R C).rows = R ∧
      (fillCtor v : StaticMatrix T R C).cols = C ∧
      (fillCtor v : StaticMatrix T R C).size = R * C := by
  refine ⟨fun row col hrow hcol => elem_fillCtor v hrow hcol, ?_,
    fun row col hrow hcol => elem_fillCtor 0 hrow hcol, rfl, rfl, rfl⟩
  have h : (fillCtor v : StaticMatrix T R C)
      = ⟨List.replicate (R * C) v, List.length_replicate _ _⟩ := by
    apply ext_elem
    intro i j hi hj
    rw [elem_fillCtor v hi hj]
    have hlt : i * C + j < R * C := offset_lt hi hj
    unfold elem
    simp [List.getD_eq_getElem?_getD, List.getElem?_replicate, hlt]
  rw [h]

/-- C13: for every `R × C` matrix `M` and every `row`, `col`, `minor(row, col)` is the
`(R - 1) × (C - 1)` matrix whose element `(r, c)` is
`M(r + (1 if r ≥ row else 0), c + (1 if c ≥ col else 0))`: row `row` and column `col` are
deleted, also when they are the last ones. -/
theorem minor_spec [Zero T] (R C : Nat) (M : StaticMatrix T R C) (row col : Nat) :
    (M.minor row col).rows = R - 1 ∧ (M.minor row col).cols = C - 1 ∧
      (∀ r c, r < R - 1 → c < C - 1 →
        (M.minor row col).elem r c
          = M.elem (r + if r ≥ row then 1 else 0) (c + if c ≥ col then 1 else 0)) ∧
      (∀ r c, r < R - 1 → c < C - 1 → (M.minor (R - 1) (C - 1)).elem r c = M.elem r c) := by
  refine ⟨rfl, rfl, fun r c hr hc => elem_minor M row col hr hc, ?_⟩
  intro r c hr hc
  rw [elem_minor M (R - 1) (C - 1) hr hc, if_neg (by omega), if_neg (by omega)]
  rfl

/-! ## Matrix sum and difference: claims -/

theorem elem_add_matrix [Zero T] [Add T] (m rhs : StaticMatrix T Rows Cols) {i j : Nat}
    (hi : i < Rows) (hj : j < Cols) :
    (m.add_matrix rhs).elem i j = m.elem i j + rhs.elem i j :=
  elem_loops_write (fun row col => m.elem row col + rhs.elem row col) init hi hj

theorem elem_sub_matrix [Zero T] [Sub T] (m rhs : StaticMatrix T Rows Cols) {i j : Nat}
    (hi : i < Rows) (hj : j < Cols) :
    (m.sub_matrix rhs).elem i j = m.elem i j - rhs.elem i j :=
  elem_loops_write (fun row col => m.elem row col - rhs.elem row col) init hi hj

theorem elem_div_by_element [Zero T] [Fundamental T] (m rhs : StaticMatrix T Rows Cols)
    {i j : Nat} (hi : i < Rows) (hj : j < Cols) :
    (m.div_by_element rhs).elem i j = Fundamental.quot (m.elem i j) (rhs.elem i j) :=
  elem_loops_write (fun row col => Fundamental.quot (m.elem row col) (rhs.elem row col))
    init hi hj

/-- C14: for all `R × C` matrices `A` and `B` with exact elements, `A + B` and `A - B` are
`A.add(B)` and `A.sub(B)`, whose element `(row, col)` is `A(row, col) + B(row, col)` and
`A(row, col) - B(row, col)`; both are functions of the operands, which they do not modify;
for `[[1, 2], [3, 4]]` and `[[5, 6], [7, 8]]` the sum is `[[6, 8], [10, 12]]`. -/
theorem operator_add_sub_spec [CommRing T] (R C : Nat) (A B : StaticMatrix T R C) :
    A.operator_add B = A.add_matrix B ∧ A.operator_sub B = A.sub_matrix B ∧
      (∀ row col, row < R → col < C →
        (A.operator_add B).elem row col = A.elem row col + B.elem row col ∧
          (A.operator_sub B).elem row col = A.elem row col - B.elem row col) ∧
      (mk22 (1 : ℤ) 2 3 4).operator_add (mk22 5 6 7 8) = mk22 6 8 10 12 := by
  refine ⟨rfl, rfl, ?_, by decide⟩
  intro row col hrow hcol
  exact ⟨elem_add_matrix A B hrow hcol, elem_sub_matrix A B hrow hcol⟩

/-! ## The identity matrix: claims -/

theorem toMatrix_identity [CommRing T] {n : Nat} (m : StaticMatrix T n n) :
    m.identity.toMatrix = 1 := by
  ext i j
  rw [toMatrix_apply, elem_identity m i.isLt j.isLt, Matrix.one_apply]
  by_cases h : i = j
  · rw [if_pos h, if_pos (congrArg Fin.val h)]
  · rw [if_neg h, if_neg (fun h2 => h (Fin.ext h2))]

theorem determinant_identity [CommRing T] {n : Nat} (hn : 1 ≤ n) (m : StaticMatrix T n n) :
    determinant n m.identity = 1 := by
  rw [determinant_eq_det n hn, toMatrix_identity, Matrix.det_one]

/-- C15: for every extent `n ≥ 1` the `n × n` identity matrix has `determinant()` equal to `1`;
so has the `3 × 3` identity `[[1, 0, 0], [0, 1, 0], [0, 0, 1]]`. -/
theorem determinant_identity_eq_one [CommRing T] (n : Nat) (hn : 1 ≤ n)
    (M : StaticMatrix T n n) :
    determinant n M.identity = 1 ∧
      (∀ row col, row < n → col < n → M.identity.elem row col = if row = col then 1 else 0) ∧
      determinant 3 (mk33 (1 : ℤ) 0 0 0 1 0 0 0 1) = 1 :=
  ⟨determinant_identity hn M, fun _ _ hrow hcol => elem_identity M hrow hcol, by decide⟩

/-- C15, at the identity matrix obtained from `[[5, 1, 2], [3, 4, 6], [7, 8, 9]]`. -/
theorem determinant_identity_eq_one_witness :
    1 ≤ 3 ∧ determinant 3 (mk33 (5 : ℤ) 1 2 3 4 6 7 8 9).identity = 1 :=
  ⟨by decide, (determinant_identity_eq_one 3 (by decide) (mk33 (5 : ℤ) 1 2 3 4 6 7 8 9)).1⟩

theorem elem_inverse [CommRing T] [Fundamental T] [DecidableEq T] {n : Nat}
    (m : StaticMatrix T n n) (h : determinant n m ≠ 0) {i j : Nat} (hi : i < n) (hj : j < n) :
    m.inverse.elem i j
      = m.calc_complements.elem j i * Fundamental.quot 1 (determinant n m) := by
  rw [inverse_of_ne_zero m h, elem_mul_by_element _ _ hi hj, elem_transpose _ hi hj,
    elem_fillCtor _ hi hj]

/-- Where `1 / 1` is `1` in the element type, the inverse of an identity matrix of extent at
least two is that identity matrix. -/
theorem inverse_identity [CommRing T] [Fundamental T] [DecidableEq T] [Nontrivial T]
    (hq : Fundamental.quot (1 : T) 1 = 1) {k : Nat} (m : StaticMatrix T (k + 2) (k + 2)) :
    m.identity.inverse = m.identity := by
  have hdet : determinant (k + 2) m.identity = 1 := determinant_identity (by omega) m
  apply ext_elem
  intro i j hi hj
  rw [elem_inverse m.identity (by rw [hdet]; exact one_ne_zero) hi hj, hdet, hq, mul_one]
  have h := calc_complements_eq_adjugate m.identity ⟨j, hj⟩ ⟨i, hi⟩
  simp only at h
  rw [h, toMatrix_identity, Matrix.adjugate_one, ← toMatrix_identity m, toMatrix_apply]

/-- C16: the inverse of the `3 × 3` identity matrix `I` is `I.identity()`, the `3 × 3`
identity matrix, over the integers and over the rationals. -/
theorem inverse_identity_three :
    (mk33 (1 : ℤ) 0 0 0 1 0 0 0 1).inverse = (mk33 (1 : ℤ) 0 0 0 1 0 0 0 1).identity ∧
      (mk33 (1 : ℚ) 0 0 0 1 0 0 0 1).inverse = (mk33 (1 : ℚ) 0 0 0 1 0 0 0 1).identity ∧
      (mk33 (1 : ℤ) 0 0 0 1 0 0 0 1).identity = mk33 1 0 0 0 1 0 0 0 1 ∧
      (mk33 (1 : ℚ) 0 0 0 1 0 0 0 1).identity = mk33 1 0 0 0 1 0 0 0 1 := by
  have hz : (mk33 (1 : ℤ) 0 0 0 1 0 0 0 1).identity = mk33 1 0 0 0 1 0 0 0 1 := rfl
  have hq : (mk33 (1 : ℚ) 0 0 0 1 0 0 0 1).identity = mk33 1 0 0 0 1 0 0 0 1 := rfl
  refine ⟨?_, ?_, hz, hq⟩
  · have h := inverse_identity (T := ℤ) (by decide) (mk33 (1 : ℤ) 0 0 0 1 0 0 0 1)
    rw [hz] at h
    rw [hz]
    exact h
  · have h := inverse_identity (T := ℚ) (div_one 1) (mk33 (1 : ℚ) 0 0 0 1 0 0 0 1)
    rw [hq] at h
    rw [hq]
    exact h

/-- C17: for every `n × n` matrix `M`, whatever its contents, `M.identity()` (a function of
`M`, which it does not modify) and the in-place `M.to_identity()` give the same matrix:
element `(row, col)` is one when `row = col` and zero otherwise. -/
theorem identity_eq_to_identity [Zero T] [One T] (n : Nat) (M : StaticMatrix T n n) :
    M.identity = M.to_identity ∧
      (∀ row col, row < n → col < n →
        M.identity.elem row col = (if row = col then 1 else 0) ∧
          M.to_identity.elem row col = (if row = col then 1 else 0)) := by
  have hto : ∀ row col, row < n → col < n →
      M.to_identity.elem row col = (if row = col then 1 else 0) := by
    intro row col hrow hcol
    exact elem_loops_write (fun row col => if row = col then (1 : T) else 0) M hrow hcol
  refine ⟨?_, fun row col hrow hcol => ⟨elem_identity M hrow hcol, hto row col hrow hcol⟩⟩
  apply ext_elem
  intro i j hi hj
  rw [elem_identity M hi hj, hto i j hi hj]

/-! ## Cofactors: claims -/

/-- C18: for every `n × n` integer matrix `M`, element `(row, col)` of `calc_complements()`
is `minor_item(row, col) = determinant(minor(row, col))` when `row + col` is even and its
negation when `row + col` is odd, that is `(-1)^(row + col) * determinant(minor(row, col))`. -/
theorem calc_complements_spec (n : Nat) (M : StaticMatrix ℤ n n) :
    ∀ row col, row < n → col < n →
      M.minor_item row col = determinant (n - 1) (M.minor row col) ∧
        M.calc_complements.elem row col
          = (if (row + col) % 2 = 0 then M.minor_item row col else -(M.minor_item row col)) ∧
        M.calc_complements.elem row col
          = (-1) ^ (row + col) * determinant (n - 1) (M.minor row col) := by
  intro row col hrow hcol
  have h := elem_calc_complements M hrow hcol
  refine ⟨rfl, ?_, ?_⟩
  · rw [h]
    by_cases hpar : (row + col) % 2 = 0
    · rw [if_neg (not_not.mpr hpar), if_pos hpar]
    · rw [if_pos hpar, if_neg hpar]
  · rw [h]
    show _ = (-1) ^ (row + col) * M.minor_item row col
    rcases Nat.even_or_odd (row + col) with he | ho
    · have h2 : ¬ (row + col) % 2 ≠ 0 := by
        rw [Nat.even_iff] at he
        omega
      rw [if_neg h2, he.neg_one_pow, one_mul]
    · have h2 : (row + col) % 2 ≠ 0 := by
        rw [Nat.odd_iff] at ho
        omega
      rw [if_pos h2, ho.neg_one_pow, neg_one_mul]

/-- C18, at `[[2, 0, 1], [1, 3, 2], [1, 1, 2]]` and element `(1, 2)`, where the sign is
negative. -/
theorem calc_complements_spec_witness :
    (1 < 3 ∧ 2 < 3) ∧
      (mk33 (2 : ℤ) 0 1 1 3 2 1 1 2).calc_complements.elem 1 2
        = (-1) ^ (1 + 2) * determinant (3 - 1) ((mk33 (2 : ℤ) 0 1 1 3 2 1 1 2).minor 1 2) :=
  ⟨⟨by decide, by decide⟩,
    (calc_complements_spec 3 (mk33 (2 : ℤ) 0 1 1 3 2 1 1 2) 1 2 (by decide) (by decide)).2.2⟩

/-! ## Scalar operators: claims -/

theorem elem_transform [Zero T] (m : StaticMatrix T Rows Cols) (op : T → T) {i j : Nat}
    (hi : i < Rows) (hj : j < Cols) : (m.transform op).elem i j = op (m.elem i j) := by
  have hlt : i * Cols + j < m.data_.length := by rw [m.size_ok]; exact offset_lt hi hj
  have hlt2 : i * Cols + j < (m.transform op).data_.length := by
    rw [(m.transform op).size_ok]; exact offset_lt hi hj
  rw [elem_eq_getElem _ hlt2, elem_eq_getElem m hlt]
  unfold transform
  exact List.getElem_map op

/-- C19: for every `R × C` matrix `M` and scalar `s`, the binary operators `M + s`, `M - s`,
`M * s` and (for `s ≠ 0`) `M / s`, computed element-wise against a matrix fill-constructed
from `s`, return the matrix that the in-place members `add(s)`, `sub(s)`, `mul(s)`, `div(s)`
leave in a copy of `M`: each element `e` replaced by `e + s`, `e - s`, `e * s`, `e / s`. They
are functions of `M`, which they do not modify. -/
theorem scalar_operators_spec [CommRing T] [Fundamental T] [DecidableEq T] (R C : Nat)
    (M : StaticMatrix T R C) (s : T) :
    M.operator_add_scalar s = M.add s ∧ M.operator_sub_scalar s = M.sub s ∧
      M.operator_mul_scalar s = M.mul s ∧ (s ≠ 0 → M.operator_div_scalar s = M.div s) ∧
      (∀ row col, row < R → col < C →
        (M.add s).elem row col = M.elem row col + s ∧
          (M.sub s).elem row col = M.elem row col - s ∧
          (M.mul s).elem row col = M.elem row col * s ∧
          (M.div s).elem row col = Fundamental.quot (M.elem row col) s) ∧
      (mk22 (7 : ℤ) (-7) 3 4).operator_div_scalar 2 = mk22 3 (-3) 1 2 := by
  refine ⟨?_, ?_, ?_, ?_, ?_, by decide⟩
  · apply ext_elem
    intro i j hi hj
    show (M.add_matrix (fillCtor s)).elem i j = (M.transform (fun item => item + s)).elem i j
    rw [elem_add_matrix _ _ hi hj, elem_fillCtor s hi hj, elem_transform _ _ hi hj]
  · apply ext_elem
    intro i j hi hj
    show (M.sub_matrix (fillCtor s)).elem i j = (M.transform (fun item => item - s)).elem i j
    rw [elem_sub_matrix _ _ hi hj, elem_fillCtor s hi hj, elem_transform _ _ hi hj]
  · apply ext_elem
    intro i j hi hj
    show (M.mul_by_element (fillCtor s)).elem i j
      = (M.transform (fun item => item * s)).elem i j
    rw [elem_mul_by_element _ _ hi hj, elem_fillCtor s hi hj, elem_transform _ _ hi hj]
  · intro _
    apply ext_elem
    intro i j hi hj
    show (M.div_by_element (fillCtor s)).elem i j
      = (M.transform (fun item => Fundamental.quot item s)).elem i j
    rw [elem_div_by_element _ _ hi hj, elem_fillCtor s hi hj, elem_transform _ _ hi hj]
  · intro row col hrow hcol
    exact ⟨elem_transform M _ hrow hcol, elem_transform M _ hrow hcol,
      elem_transform M _ hrow hcol, elem_transform M _ hrow hcol⟩

/-! ## Printing: claims -/

theorem join_append_singleton (l : List String) (x : String) :
    String.join (l ++ [x]) = String.join l ++ x := by
  unfold String.join
  rw [List.foldl_append]
  rfl

/-- A loop that appends one piece of text per iteration appends their concatenation. -/
theorem forLoop_append (g : Nat → String) (n : Nat) (os : String) :
    forLoop n (fun i os => os ++ g i) os = os ++ String.join ((List.range n).map g) := by
  induction n with
  | zero =>
    show os = os ++ String.join []
    exact (String.append_empty os).symm
  | succ k ih =>
    rw [forLoop_succ, ih, List.range_succ, List.map_append, List.map_singleton,
      join_append_singleton, String.append_assoc]

/-- C20 as stated fails: for `[[1, 2], [3, 4]]` with separator `,` and row end `;` the source
writes the separator after the last element of each row too. -/
theorem print_joined_counterexample :
    print (fun _ _ (e : ℤ) => String.singleton (Char.ofNat (e.toNat + 48)))
        (mk22 (1 : ℤ) 2 3 4) "" ⟨0, 0, ",", ";", false⟩ = "1,2,;3,4,;" ∧
      print_joined (fun _ _ (e : ℤ) => String.singleton (Char.ofNat (e.toNat + 48)))
        (mk22 (1 : ℤ) 2 3 4) "" ⟨0, 0, ",", ";", false⟩ = "1,2;3,4;" ∧
      print (fun _ _ (e : ℤ) => String.singleton (Char.ofNat (e.toNat + 48)))
        (mk22 (1 : ℤ) 2 3 4) "" ⟨0, 0, ",", ";", false⟩
        ≠ print_joined (fun _ _ (e : ℤ) => String.singleton (Char.ofNat (e.toNat + 48)))
          (mk22 (1 : ℤ) 2 3 4) "" ⟨0, 0, ",", ";", false⟩ := by
  refine ⟨by decide, by decide, by decide⟩

/-- C20, amended: `print` appends to the sink, for each row in order, each of the row's `C`
elements rendered by `fmt` and followed by `separator` (the last element of the row too), then
`end`; and after the last row one more `end` exactly when `is_double_end` is set. -/
theorem print_spec [Zero T] (fmt : Nat → Nat → T → String) (R C : Nat)
    (M : StaticMatrix T R C) (os : String) (settings : MatrixDebugSettings) :
    print fmt M os settings
      = os ++ String.join ((List.range R).map fun row =>
            String.join ((List.range C).map fun col =>
              fmt settings.width settings.precision (M.elem row col) ++ settings.separator)
            ++ settings.end_)
          ++ (if settings.is_double_end then settings.end_ else "") := by
  have hrows : forLoop R (fun row os =>
      forLoop C (fun col os =>
        os ++ fmt settings.width settings.precision (M.elem row col) ++ settings.separator) os
      ++ settings.end_) os
      = os ++ String.join ((List.range R).map fun row =>
          String.join ((List.range C).map fun col =>
            fmt settings.width settings.precision (M.elem row col) ++ settings.separator)
          ++ settings.end_) := by
    rw [← forLoop_append]
    apply forLoop_congr
    intro row _ t
    have hcols : forLoop C (fun col os =>
        os ++ fmt settings.width settings.precision (M.elem row col) ++ settings.separator) t
        = t ++ String.join ((List.range C).map fun col =>
            fmt settings.width settings.precision (M.elem row col) ++ settings.separator) := by
      rw [← forLoop_append]
      apply forLoop_congr
      intro col _ u
      exact String.append_assoc _ _ _
    show forLoop C _ t ++ settings.end_ = _
    rw [hcols, String.append_assoc]
  unfold print
  simp only [hrows]
  cases settings.is_double_end
  · simp
  · simp

/-! ## The inverse over an integral element type: claims -/

/-- The rows of `M` against the columns of `M.inverse()`, for any element type: the diagonal
holds the determinant times the scale factor `1 / determinant()`. -/
theorem mul_inverse_scaled [CommRing T] [Fundamental T] [DecidableEq T] {k : Nat}
    (m : StaticMatrix T (k + 2) (k + 2)) (h : determinant (k + 2) m ≠ 0) (i j : Fin (k + 2)) :
    ∑ x in Finset.range (k + 2), m.elem i x * m.inverse.elem x j
      = if i = j then determinant (k + 2) m * Fundamental.quot 1 (determinant (k + 2) m)
        else 0 := by
  rw [← Fin.sum_univ_eq_sum_range (fun x => m.elem i x * m.inverse.elem x j) (k + 2)]
  have hterm : ∀ x : Fin (k + 2), m.elem i x * m.inverse.elem x j
      = m.toMatrix i x * Matrix.adjugate m.toMatrix x j
          * Fundamental.quot 1 (determinant (k + 2) m) := by
    intro x
    rw [elem_inverse m h x.isLt j.isLt, calc_complements_eq_adjugate, toMatrix_apply,
      mul_assoc]
  rw [Finset.sum_congr rfl (fun x _ => hterm x), ← Finset.sum_mul, ← Matrix.mul_apply,
    Matrix.mul_adjugate, ← determinant_eq_det_succ (k + 1) m, Matrix.smul_apply,
    Matrix.one_apply, smul_eq_mul]
  by_cases hij : i = j
  · rw [if_pos hij, if_pos hij, mul_one]
  · rw [if_neg hij, if_neg hij, mul_zero, zero_mul]

/-- Truncating division of `1` by an integer of absolute value at least two is `0`. -/
theorem quot_one_eq_zero (d : ℤ) (hd : 2 ≤ |d|) : Fundamental.quot 1 d = 0 := by
  show Int.tdiv 1 d = 0
  rcases le_or_lt 0 d with hpos | hneg
  · rw [abs_of_nonneg hpos] at hd
    exact Int.tdiv_eq_zero_of_lt (by decide) (by omega)
  · rw [abs_of_neg hneg] at hd
    have hdd : d = -(-d) := (neg_neg d).symm
    rw [hdd, Int.tdiv_neg, Int.tdiv_eq_zero_of_lt (by decide) (by omega)]
    rfl

/-- C21: for every extent `n ≥ 2` and every `n × n` integer matrix `M` with determinant `d`:
when `|d| ≥ 2` the scale factor `1 / d` truncates to `0` and `inverse()` is the all-zero
matrix, the result it also returns for a singular matrix; when `d` is `1` or `-1` the scale
factor is `d` and the product of `M` with `M.inverse()` is the identity. -/
theorem inverse_integer (n : Nat) (hn : 2 ≤ n) (M : StaticMatrix ℤ n n) :
    (2 ≤ |determinant n M| →
      Fundamental.quot 1 (determinant n M) = 0 ∧ M.inverse = M.zero ∧
        (∀ i j, M.inverse.elem i j = 0) ∧
        ∀ S : StaticMatrix ℤ n n, determinant n S = 0 → S.inverse = M.inverse) ∧
      ((determinant n M = 1 ∨ determinant n M = -1) →
        Fundamental.quot 1 (determinant n M) = determinant n M ∧
          ∀ i j, i < n → j < n →
            ∑ k in Finset.range n, M.elem i k * M.inverse.elem k j
              = if i = j then 1 else 0) := by
  constructor
  · intro hd
    have hq := quot_one_eq_zero (determinant n M) hd
    have hne : determinant n M ≠ 0 := by
      intro h0
      rw [h0] at hd
      simp at hd
    have hzero : M.inverse = M.zero := by
      apply ext_elem
      intro i j hi hj
      rw [elem_inverse M hne hi hj, hq, mul_zero]
      exact (elem_init i j).symm
    refine ⟨hq, hzero, ?_, ?_⟩
    · intro i j
      rw [hzero]
      exact elem_init i j
    · intro S hS
      rw [hzero, inverse_of_eq_zero S hS]
      rfl
  · intro hd
    have hq : Fundamental.quot 1 (determinant n M) = determinant n M := by
      rcases hd with h | h
      · rw [h]; decide
      · rw [h]; decide
    have hne : determinant n M ≠ 0 := by
      rcases hd with h | h
      · rw [h]; decide
      · rw [h]; decide
    have hsq : determinant n M * determinant n M = 1 := by
      rcases hd with h | h
      · rw [h]; decide
      · rw [h]; decide
    refine ⟨hq, ?_⟩
    intro i j hi hj
    obtain ⟨k, rfl⟩ : ∃ k, n = k + 2 := ⟨n - 2, by omega⟩
    have h := mul_inverse_scaled M hne ⟨i, hi⟩ ⟨j, hj⟩
    simp only [Fin.mk.injEq] at h
    rw [h, hq, hsq]

/-- C21, at `[[2, 0], [0, 2]]`, of determinant `4`. -/
theorem inverse_integer_witness :
    (2 ≤ 2 ∧ 2 ≤ |determinant 2 (mk22 (2 : ℤ) 0 0 2)|) ∧
      (mk22 (2 : ℤ) 0 0 2).inverse = (mk22 (2 : ℤ) 0 0 2).zero :=
  ⟨⟨by decide, by decide⟩,
    ((inverse_integer 2 (by decide) (mk22 (2 : ℤ) 0 0 2)).1 (by decide)).2.1⟩

/-! ## The reads of `minor`: claims -/

/-- An invariant indexed by the iteration count holds after the loop. -/
theorem forLoop_inv {σ : Type} (Inv : Nat → σ → Prop) (n : Nat) (body : Nat → σ → σ) (s : σ)
    (h0 : Inv 0 s) (hstep : ∀ i, i < n → ∀ t, Inv i t → Inv (i + 1) (body i t)) :
    Inv n (forLoop n body s) := by
  induction n with
  | zero => exact h0
  | succ k ih =>
    rw [forLoop_succ]
    exact hstep k (Nat.lt_succ_self k) _
      (ih (fun i hi t ht => hstep i (Nat.lt_succ_of_lt hi) t ht))

/-- A loop on a pair whose first component evolves on its own is, on that component, the loop
of the first component. -/
theorem forLoop_fst {σ τ : Type} (n : Nat) (body : Nat → σ → σ)
    (body2 : Nat → σ × τ → σ × τ) (h : ∀ i, i < n → ∀ p, (body2 i p).1 = body i p.1)
    (p : σ × τ) : (forLoop n body2 p).1 = forLoop n body p.1 := by
  induction n with
  | zero => rfl
  | succ k ih =>
    rw [forLoop_succ, forLoop_succ, h k (Nat.lt_succ_self k),
      ih (fun i hi q => h i (Nat.lt_succ_of_lt hi) q)]

theorem minorColsReads_fst [Zero T] (m : StaticMatrix T Rows Cols) (col r : Nat)
    (p : MinorState T Rows Cols × List (Nat × Nat)) :
    (minorColsReads m col r p).1 = minorCols m col r p.1 := by
  unfold minorColsReads minorCols
  exact forLoop_fst (Cols - 1) _ _ (fun _ _ _ => rfl) p

theorem minorLoopsReads_fst [Zero T] (m : StaticMatrix T Rows Cols) (row col : Nat) :
    (minorLoopsReads m row col).1 = minorLoops m row col := by
  unfold minorLoopsReads minorLoops
  refine forLoop_fst (Rows - 1) _ _ ?_
    (({ skip_row := 0, skip_col := 0, minored := init } : MinorState T Rows Cols), [])
  intro r _ p
  exact minorColsReads_fst m col r _

/-- The inner loop of `minor` keeps both skips at most one, records one read per destination
column, and reads inside the source extents. -/
theorem minorColsReads_inv [Zero T] (m : StaticMatrix T Rows Cols) (col r : Nat)
    (hr : r < Rows - 1) (p : MinorState T Rows Cols × List (Nat × Nat)) (len : Nat)
    (hp : p.1.skip_row ≤ 1 ∧ p.1.skip_col ≤ 1 ∧ p.2.length = len ∧
      ∀ q ∈ p.2, q.1 < Rows ∧ q.2 < Cols) :
    (minorColsReads m col r p).1.skip_row ≤ 1 ∧ (minorColsReads m col r p).1.skip_col ≤ 1 ∧
      (minorColsReads m col r p).2.length = len + (Cols - 1) ∧
      ∀ q ∈ (minorColsReads m col r p).2, q.1 < Rows ∧ q.2 < Cols := by
  unfold minorColsReads
  refine forLoop_inv
    (fun c (p : MinorState T Rows Cols × List (Nat × Nat)) =>
      p.1.skip_row ≤ 1 ∧ p.1.skip_col ≤ 1 ∧ p.2.length = len + c ∧
        ∀ q ∈ p.2, q.1 < Rows ∧ q.2 < Cols) (Cols - 1) _ p hp ?_
  intro c hc t ht
  obtain ⟨h1, h2, h3, h4⟩ := ht
  by_cases hcc : col = c
  · simp only [hcc, if_true]
    refine ⟨h1, Nat.le_refl 1, ?_, ?_⟩
    · rw [List.length_append, h3]
      rfl
    · intro q hq
      rcases List.mem_append.mp hq with hq | hq
      · exact h4 q hq
      · rw [List.mem_singleton] at hq
        subst hq
        exact ⟨by show r + t.1.skip_row < Rows; omega, by show c + 1 < Cols; omega⟩
  · simp only [if_neg hcc]
    refine ⟨h1, h2, ?_, ?_⟩
    · rw [List.length_append, h3]
      rfl
    · intro q hq
      rcases List.mem_append.mp hq with hq | hq
      · exact h4 q hq
      · rw [List.mem_singleton] at hq
        subst hq
        exact ⟨by show r + t.1.skip_row < Rows; omega,
          by show c + t.1.skip_col < Cols; omega⟩

/-- The loops of `minor` record one read per destination element, all inside the source
extents. -/
theorem minorLoopsReads_inv [Zero T] (m : StaticMatrix T Rows Cols) (row col : Nat) :
    (minorLoopsReads m row col).2.length = (Rows - 1) * (Cols - 1) ∧
      ∀ q ∈ (minorLoopsReads m row col).2, q.1 < Rows ∧ q.2 < Cols := by
  have h := forLoop_inv
    (fun r (p : MinorState T Rows Cols × List (Nat × Nat)) =>
      p.1.skip_row ≤ 1 ∧ p.2.length = r * (Cols - 1) ∧ ∀ q ∈ p.2, q.1 < Rows ∧ q.2 < Cols)
    (Rows - 1)
    (fun r (st : MinorState T Rows Cols × List (Nat × Nat)) =>
      let st1 : MinorState T Rows Cols := if row = r then { st.1 with skip_row := 1 } else st.1
      let st2 : MinorState T Rows Cols := { st1 with skip_col := 0 }
      minorColsReads m col r (st2, st.2))
    (({ skip_row := 0, skip_col := 0, minored := init } : MinorState T Rows Cols), [])
    ⟨Nat.zero_le 1, by simp, fun q hq => absurd hq (List.not_mem_nil q)⟩
    (by
      intro r hr t ht
      obtain ⟨h1, h2, h3⟩ := ht
      have hskip : (if row = r then ({ t.1 with skip_row := 1 } : MinorState T Rows Cols)
          else t.1).skip_row ≤ 1 := by
        by_cases hrr : row = r
        · rw [if_pos hrr]
        · rw [if_neg hrr]; exact h1
      obtain ⟨g1, _, g3, g4⟩ := minorColsReads_inv m col r hr
        (({ (if row = r then ({ t.1 with skip_row := 1 } : MinorState T Rows Cols)
            else t.1) with skip_col := 0 } : MinorState T Rows Cols), t.2)
        (r * (Cols - 1)) ⟨hskip, Nat.zero_le 1, h2, h3⟩
      refine ⟨g1, ?_, g4⟩
      rw [Nat.succ_mul]
      exact g3)
  exact ⟨h.2.1, h.2.2⟩

/-- An index at or past the last row or column deletes the last row or column. -/
theorem minor_clamp [Zero T] (m : StaticMatrix T Rows Cols) (row col : Nat) :
    m.minor row col = m.minor (min row (Rows - 1)) (min col (Cols - 1)) := by
  apply ext_elem
  intro i j hi hj
  rw [elem_minor m row col hi hj, elem_minor m _ _ hi hj]
  have h1 : (row ≤ i) = (min row (Rows - 1) ≤ i) := by
    apply propext
    constructor
    · intro h; exact le_trans (min_le_left _ _) h
    · intro h
      rcases min_le_iff.mp h with h | h
      · exact h
      · omega
  have h2 : (col ≤ j) = (min col (Cols - 1) ≤ j) := by
    apply propext
    constructor
    · intro h; exact le_trans (min_le_left _ _) h
    · intro h
      rcases min_le_iff.mp h with h | h
      · exact h
      · omega
  simp only [h1, h2]

/-- C22: for every `R × C` matrix `M` and all index arguments `row`, `col`, in range or not,
`minor(row, col)` reads the source only at index pairs inside its extents (one read per
destination element, each `(r + skip_row, c + skip_col)` with `r + skip_row ≤ R - 1` and
`c + skip_col ≤ C - 1`), and equals `minor(min(row, R - 1), min(col, C - 1))`: an index at or
past the last row or column deletes the last row or column and nothing fails. -/
theorem minor_reads_in_range [Zero T] (R C : Nat) (M : StaticMatrix T R C) (row col : Nat) :
    (minorLoopsReads M row col).1.minored = M.minor row col ∧
      (minorLoopsReads M row col).2.length = (R - 1) * (C - 1) ∧
      (∀ q ∈ (minorLoopsReads M row col).2,
        q.1 ≤ R - 1 ∧ q.2 ≤ C - 1 ∧ q.1 < R ∧ q.2 < C ∧ q.1 * C + q.2 < R * C) ∧
      M.minor row col = M.minor (min row (R - 1)) (min col (C - 1)) ∧
      (R - 1 ≤ row → M.minor row col = M.minor (R - 1) col) ∧
      (C - 1 ≤ col → M.minor row col = M.minor row (C - 1)) := by
  obtain ⟨hlen, hreads⟩ := minorLoopsReads_inv M row col
  refine ⟨?_, hlen, ?_, minor_clamp M row col, ?_, ?_⟩
  · rw [minorLoopsReads_fst]
    rfl
  · intro q hq
    obtain ⟨h1, h2⟩ := hreads q hq
    exact ⟨by omega, by omega, h1, h2, offset_lt h1 h2⟩
  · intro h
    rw [minor_clamp M row col, minor_clamp M (R - 1) col, Nat.min_eq_right h, Nat.min_self]
  · intro h
    rw [minor_clamp M row col, minor_clamp M row (C - 1), Nat.min_eq_right h, Nat.min_self]

/-! ## Row-major addressing: claims -/

theorem offset_onto {R C k : Nat} (hk : k < R * C) :
    ∃ row col, row < R ∧ col < C ∧ row * C + col = k := by
  have hC : 0 < C := by
    rcases Nat.eq_zero_or_pos C with h0 | h0
    · subst h0; simp at hk
    · exact h0
  refine ⟨k / C, k % C, Nat.div_lt_of_lt_mul (by rw [Nat.mul_comm]; exact hk),
    Nat.mod_lt _ hC, ?_⟩
  rw [Nat.mul_comm]
  exact Nat.div_add_mod k C

/-- C23: for all `row < R` and `col < C` the offset `row * C + col` used by the accessors is
below `R * C`, inside the storage, where the accessors find the element; the map
`(row, col) ↦ row * C + col` is injective on in-range pairs and onto `0..R*C-1`; so writing
element `(row, col)` changes that element and no other in-range element. -/
theorem offset_spec [Zero T] (R C : Nat) (M : StaticMatrix T R C) :
    (∀ row col, row < R → col < C →
      row * C + col < R * C ∧ row * C + col < M.data_.length ∧
        M.data_[row * C + col]? = some (M.elem row col) ∧
        M.at_ row col = Except.ok (M.elem row col)) ∧
      (∀ r c i j, r < R → c < C → i < R → j < C → r * C + c = i * C + j → r = i ∧ c = j) ∧
      (∀ k, k < R * C → ∃ row col, row < R ∧ col < C ∧ row * C + col = k) ∧
      (∀ r c i j (v : T), r < R → c < C → i < R → j < C → (r, c) ≠ (i, j) →
        (M.setElem r c v).elem i j = M.elem i j) ∧
      (∀ r c (v : T), r < R → c < C → (M.setElem r c v).elem r c = v) := by
  refine ⟨?_, ?_, ?_, ?_, ?_⟩
  · intro row col hrow hcol
    have hlt : row * C + col < M.data_.length := by rw [M.size_ok]; exact offset_lt hrow hcol
    refine ⟨offset_lt hrow hcol, hlt, ?_, ?_⟩
    · rw [elem_eq_getElem M hlt]
      exact List.getElem?_eq_getElem hlt
    · unfold at_
      rw [if_neg (by omega)]
  · intro r c i j _ hc _ hj h
    exact offset_inj hc hj h
  · intro k hk
    exact offset_onto hk
  · intro r c i j v _ hc hi hj hne
    rw [elem_setElem M v hc hi hj, if_neg]
    intro h
    exact hne (by rw [h.1, h.2])
  · intro r c v hr hc
    rw [elem_setElem M v hc hr hc, if_pos ⟨rfl, rfl⟩]

/-! ## The flat array: claims -/

theorem eq_of_data_eq (a b : StaticMatrix T Rows Cols) (h : a.data_ = b.data_) : a = b := by
  obtain ⟨da, ha⟩ := a
  obtain ⟨db, hb⟩ := b
  simp only at h
  subst h
  rfl

theorem StdArray.eq_of_elems_eq {N : Nat} (a b : StdArray T N) (h : a.elems = b.elems) :
    a = b := by
  obtain ⟨da, ha⟩ := a
  obtain ⟨db, hb⟩ := b
  simp only at h
  subst h
  rfl

/-- The array constructor copies the array into the storage. -/
theorem data_arrayCtor [Zero T] (a : StdArray T (Rows * Cols)) :
    (arrayCtor a : StaticMatrix T Rows Cols).data_ = a.elems := by
  have h := forLoop_inv
    (fun i (m : StaticMatrix T Rows Cols) => ∀ k, k < i → m.data_[k]? = a.elems[k]?)
    (Rows * Cols) (fun i m => m.setData i (a.elems.getD i 0)) init
    (fun k hk => absurd hk (Nat.not_lt_zero k))
    (by
      intro i hi m hm k hk
      have hia : i < a.elems.length := by rw [a.size_ok]; exact hi
      have him : i < m.data_.length := by rw [m.size_ok]; exact hi
      show (m.data_.set i (a.elems.getD i 0))[k]? = _
      rw [List.getElem?_set]
      by_cases hik : i = k
      · subst hik
        rw [if_pos rfl, if_pos him, List.getD_eq_getElem _ _ hia]
        exact (List.getElem?_eq_getElem hia).symm
      · rw [if_neg hik]
        exact hm k (by omega))
  apply List.ext_getElem?
  intro k
  by_cases hk : k < Rows * Cols
  · exact h k hk
  · rw [List.getElem?_eq_none (by rw [(arrayCtor a).size_ok]; omega),
      List.getElem?_eq_none (by rw [a.size_ok]; omega)]

/-- The loops of `to_array` after all rows: the counter and the array filled so far. -/
theorem elems_to_array [Zero T] (m : StaticMatrix T Rows Cols) :
    m.to_array.elems = m.data_ := by
  have inner : ∀ r, r < Rows → ∀ st : Nat × StdArray T (Rows * Cols),
      (st.1 = r * Cols ∧ ∀ k, k < r * Cols → st.2.elems[k]? = m.data_[k]?) →
      (fun (res : Nat × StdArray T (Rows * Cols)) =>
        res.1 = (r + 1) * Cols ∧ ∀ k, k < (r + 1) * Cols → res.2.elems[k]? = m.data_[k]?)
        (forLoop Cols (fun col (st : Nat × StdArray T (Rows * Cols)) =>
          (st.1 + 1, st.2.set st.1 (m.elem r col))) st) := by
    intro r hr st hst
    have h := forLoop_inv
      (fun c (st : Nat × StdArray T (Rows * Cols)) =>
        st.1 = r * Cols + c ∧ ∀ k, k < r * Cols + c → st.2.elems[k]? = m.data_[k]?)
      Cols (fun col (st : Nat × StdArray T (Rows * Cols)) =>
          (st.1 + 1, st.2.set st.1 (m.elem r col))) st
      ⟨hst.1, hst.2⟩
      (by
        intro c hc t ht
        obtain ⟨h1, h2⟩ := ht
        have hoff : r * Cols + c < Rows * Cols := offset_lt hr hc
        have hdata : r * Cols + c < m.data_.length := by rw [m.size_ok]; exact hoff
        have harr : r * Cols + c < t.2.elems.length := by rw [t.2.size_ok]; exact hoff
        refine ⟨by show t.1 + 1 = r * Cols + (c + 1); omega, ?_⟩
        intro k hk
        show (t.2.elems.set t.1 (m.elem r c))[k]? = _
        rw [List.getElem?_set, h1]
        by_cases hik : r * Cols + c = k
        · subst hik
          rw [if_pos rfl, if_pos harr, elem_eq_getElem m hdata]
          exact (List.getElem?_eq_getElem hdata).symm
        · rw [if_neg hik]
          exact h2 k (by omega))
    have hmul : (r + 1) * Cols = r * Cols + Cols := Nat.succ_mul r Cols
    simp only [hmul]
    exact h
  have outer := forLoop_inv
    (fun r (st : Nat × StdArray T (Rows * Cols)) =>
      st.1 = r * Cols ∧ ∀ k, k < r * Cols → st.2.elems[k]? = m.data_[k]?)
    Rows (fun row (st : Nat × StdArray T (Rows * Cols)) =>
      forLoop Cols (fun col (st : Nat × StdArray T (Rows * Cols)) =>
        (st.1 + 1, st.2.set st.1 (m.elem row col))) st)
    (0, ⟨List.replicate (Rows * Cols) 0, List.length_replicate _ _⟩)
    ⟨by simp, fun k hk => by simp at hk⟩
    (fun r hr t ht => inner r hr t ht)
  apply List.ext_getElem?
  intro k
  by_cases hk : k < Rows * Cols
  · exact outer.2 k hk
  · rw [List.getElem?_eq_none (by rw [m.to_array.size_ok]; omega),
      List.getElem?_eq_none (by rw [m.size_ok]; omega)]

/-- C24: for every `R × C` matrix `M`, the matrix constructed from `M.to_array()`, by the
array constructor or by the container constructor, is `M`; for every array `a` of length
`R * C`, `to_array()` of the matrix constructed from `a` is `a`; and element `i` of
`M.to_array()` is element `(i / C, i % C)` of `M`. -/
theorem to_array_round_trip [Zero T] (R C : Nat) :
    (∀ M : StaticMatrix T R C, arrayCtor M.to_array = M) ∧
      (∀ M : StaticMatrix T R C, containerCtor M.to_array.elems = Except.ok M) ∧
      (∀ a : StdArray T (R * C), (arrayCtor a : StaticMatrix T R C).to_array = a) ∧
      (∀ a : StdArray T (R * C), ∃ m : StaticMatrix T R C,
        containerCtor a.elems = Except.ok m ∧ m.to_array = a) ∧
      (∀ (M : StaticMatrix T R C) (i : Nat), i < R * C →
        M.to_array.elems[i]? = some (M.elem (i / C) (i % C))) := by
  have hctor : ∀ l : List T, l.length = R * C →
      (containerCtor l : Except Error (StaticMatrix T R C)) = Except.ok (copy l init) := by
    intro l h
    unfold containerCtor
    rw [if_neg (not_not.mpr h.symm)]
  refine ⟨?_, ?_, ?_, ?_, ?_⟩
  · intro M
    apply eq_of_data_eq
    rw [data_arrayCtor, elems_to_array]
  · intro M
    rw [hctor _ M.to_array.size_ok]
    congr 1
    apply eq_of_data_eq
    rw [data_copy _ _ M.to_array.size_ok, elems_to_array]
  · intro a
    apply StdArray.eq_of_elems_eq
    rw [elems_to_array, data_arrayCtor]
  · intro a
    refine ⟨copy a.elems init, hctor _ a.size_ok, ?_⟩
    apply StdArray.eq_of_elems_eq
    rw [elems_to_array, data_copy _ _ a.size_ok]
  · intro M i hi
    obtain ⟨row, col, hrow, hcol, rfl⟩ := offset_onto hi
    have hq : (row * C + col) / C = row := by
      rw [Nat.add_comm, Nat.add_mul_div_right _ _ (by omega), Nat.div_eq_of_lt hcol,
        Nat.zero_add]
    have hr : (row * C + col) % C = col := by
      rw [Nat.add_comm, Nat.add_mul_mod_self_right, Nat.mod_eq_of_lt hcol]
    have hlt : row * C + col < M.data_.length := by rw [M.size_ok]; exact offset_lt hrow hcol
    rw [hq, hr, elems_to_array, elem_eq_getElem M hlt]
    exact List.getElem?_eq_getElem hlt

end StaticMatrix

end ng
